import Mathlib

/-!
Weighted wheel (`components/Wheel.jsx`).

A shallow embedding of the wheel component: the normalizer (`data`), the
geometry step (`segments`, `totalWeight`), the weighted pick
(`pickIndexWeighted`) and the spin logic (`spin`).

JavaScript numbers are modelled by exact rationals.  `NaN`, the one
non-finite value that the normalizer guards against with `|| 0`, is kept as a
separate raw value.  The two calls of `Math.random()` are explicit arguments.
The geometry, the pick and the spin are given a second time in double precision
(`segmentsDouble`, `pickIndexWeightedDouble`, `spinDouble`), and the spin a
third time with its guard on the constant of a render (`spinClosure`).
-/

namespace Wheel

/-! ## Values -/

/-- A JavaScript number: a finite value or `NaN`. -/
inductive JSNumber where
  | nan : JSNumber
  | num (q : ℚ) : JSNumber
  deriving DecidableEq, Repr

/-- What `weights?.[i]` can evaluate to. -/
inductive JSValue where
  | undefined : JSValue
  | null : JSValue
  | number (n : JSNumber) : JSValue
  deriving DecidableEq, Repr

/-- A caller-supplied item; the wheel only reads `name`. -/
structure Item where
  name : Option String
  place_id : String
  deriving DecidableEq, Repr

/-- One element of `data`: `{ name, item, w }`. -/
structure Entry where
  name : String
  item : Option Item
  w : ℚ
  deriving DecidableEq, Repr

/-- One element of `segments`: `{ index, start, end, sweep, mid, ...d }`. -/
structure Segment where
  index : Nat
  start : ℚ
  end_ : ℚ
  sweep : ℚ
  mid : ℚ
  name : String
  item : Option Item
  w : ℚ
  deriving DecidableEq, Repr

/-! ## Strings -/

/-- White space and line terminators of ECMAScript, the characters that
`String.prototype.trim` removes. -/
def jsIsWhiteSpace (c : Char) : Bool :=
  let n := c.toNat
  n = 0x9 || n = 0xA || n = 0xB || n = 0xC || n = 0xD || n = 0x20 || n = 0xA0 ||
  n = 0x1680 || (0x2000 ≤ n && n ≤ 0x200A) || n = 0x2028 || n = 0x2029 ||
  n = 0x202F || n = 0x205F || n = 0x3000 || n = 0xFEFF

/-- The function `String.prototype.trim`, on the list of characters. -/
def trimChars (cs : List Char) : List Char :=
  ((cs.dropWhile jsIsWhiteSpace).reverse.dropWhile jsIsWhiteSpace).reverse

/-- The function `String.prototype.trim`. -/
def trim (s : String) : String := ⟨trimChars s.data⟩

/-- The placeholder name. -/
def placeholder : String := "—"

/-- The expression `it?.name`: `undefined` for a null item or a missing name. -/
def itemName (it : Option Item) : Option String :=
  match it with
  | none => none
  | some i => i.name

/-- The expression `(it?.name || "—").trim()`: the empty string is falsy. -/
def entryName (it : Option Item) : String :=
  match itemName it with
  | none => trim placeholder
  | some s => if s = "" then trim placeholder else trim s

/-! ## Normalizer -/

/-- The expression `weights?.[i]`: `undefined` when the list is absent or has no
element at `i`. -/
def weightAt (weights : Option (List JSValue)) (i : Nat) : JSValue :=
  match weights with
  | none => JSValue.undefined
  | some ws => ws[i]?.getD JSValue.undefined

/-- The expression `Number(v ?? 1)` on the values of the model. -/
def toNumber (v : JSValue) : JSNumber :=
  match v with
  | JSValue.undefined => JSNumber.num 1
  | JSValue.null => JSNumber.num 1
  | JSValue.number n => n

/-- The expression `Math.max(0, x)`: `NaN` when `x` is `NaN`. -/
def mathMax0 (x : JSNumber) : JSNumber :=
  match x with
  | JSNumber.nan => JSNumber.nan
  | JSNumber.num q => JSNumber.num (max 0 q)

/-- The expression `x || 0` on a number: `NaN` and `0` are falsy. -/
def orZero (x : JSNumber) : ℚ :=
  match x with
  | JSNumber.nan => 0
  | JSNumber.num q => if q = 0 then 0 else q

/-- The expression `Math.max(0, Number(weights?.[i] ?? 1)) || 0`. -/
def resolveWeight (v : JSValue) : ℚ := orZero (mathMax0 (toNumber v))

/-- The `map` that builds `clean`, from position `i` on. -/
def cleanFrom (weights : Option (List JSValue)) : Nat → List (Option Item) → List Entry
  | _, [] => []
  | i, it :: rest =>
    { name := entryName it, item := it, w := resolveWeight (weightAt weights i) } ::
      cleanFrom weights (i + 1) rest

/-- The list `clean` before the fallback. -/
def clean (items : List (Option Item)) (weights : Option (List JSValue)) : List Entry :=
  cleanFrom weights 0 items

/-- The reduction `xs.reduce((a, b) => a + b.w, 0)`. -/
def sumW (xs : List Entry) : ℚ := xs.foldl (fun a b => a + b.w) 0

/-- The memo `data`: `clean`, with every weight set to 1 when the sum is `<= 0`. -/
def data (items : List (Option Item)) (weights : Option (List JSValue)) : List Entry :=
  let clean := clean items weights
  let sum := sumW clean
  if sum ≤ 0 then clean.map (fun d => { d with w := 1 }) else clean

/-! ## Geometry -/

/-- The `map` that builds `segs`, from position `i` with accumulator `acc`. -/
def segsFrom (total : ℚ) : Nat → ℚ → List Entry → List Segment
  | _, _, [] => []
  | i, acc, d :: rest =>
    let sweep := (d.w / total) * 360
    let start := acc
    let end_ := acc + sweep
    { index := i, start := start, end_ := end_, sweep := sweep, mid := (start + end_) / 2,
      name := d.name, item := d.item, w := d.w } :: segsFrom total (i + 1) end_ rest

/-- The value `totalWeight` of the geometry memo. -/
def totalWeight (data : List Entry) : ℚ := sumW data

/-- The value `segments` of the geometry memo. -/
def segments (data : List Entry) : List Segment :=
  segsFrom (totalWeight data) 0 0 data

/-! ## Weighted pick -/

/-- The `for` loop of `pickIndexWeighted`: `none` when the walk exhausts the list. -/
def pickLoop : List Segment → ℚ → Option Nat
  | [], _ => none
  | s :: rest, r =>
    let r := r - s.w
    if r ≤ 0 then some s.index else pickLoop rest r

/-- The function `pickIndexWeighted`, with `rand` the value of `Math.random()`;
`none` stands for the `TypeError` of reading `.index` of `undefined`. -/
def pickIndexWeighted (segments : List Segment) (totalWeight : ℚ) (rand : ℚ) : Option Nat :=
  let r := rand * totalWeight
  match pickLoop segments r with
  | some i => some i
  | none => segments[segments.length - 1]?.map (fun s => s.index)

/-! ## Spin -/

/-- The function `Math.round`: the nearest integer, halves towards `+∞`. -/
def mathRound (x : ℚ) : ℤ := Int.floor (x + 1 / 2)

/-- The function `Math.floor`. -/
def mathFloor (x : ℚ) : ℤ := Int.floor x

/-- The React state of a wheel and the result callbacks it has scheduled and fired. -/
structure WheelState where
  spinning : Bool
  rotation : ℚ
  timers : List (Option Item × Nat)
  results : List (Option Item × Nat)
  deriving DecidableEq, Repr

/-- The state of a freshly mounted wheel. -/
def WheelState.init : WheelState :=
  { spinning := false, rotation := 0, timers := [], results := [] }

/-- The function `spin`, with `rand1` and `rand2` the two values of
`Math.random()`; `none` stands for an exception.  The arithmetic is exact and the
guard reads the state, as in a render that follows the last update; `spinDouble`
computes in doubles and `spinClosure` reads the constant of an earlier render. -/
def spin (segments : List Segment) (totalWeight : ℚ) (st : WheelState) (rand1 rand2 : ℚ) :
    Option WheelState :=
  if segments.length = 0 ∨ st.spinning = true then some st
  else
    match pickIndexWeighted segments totalWeight rand1 with
    | none => none
    | some winnerIdx =>
      match segments[winnerIdx]? with
      | none => none
      | some winnerSeg =>
        let targetAtTop := 360 - winnerSeg.mid
        let spins := 6 + mathFloor (rand2 * 3)
        let final := (spins : ℚ) * 360 + targetAtTop
        some { spinning := true,
               rotation := st.rotation + (mathRound (final * 10) : ℚ) / 10,
               timers := st.timers ++ [(winnerSeg.item, winnerIdx)],
               results := st.results }

/-- The callback of `setTimeout`: the oldest scheduled timer fires. -/
def complete (st : WheelState) : WheelState :=
  match st.timers with
  | [] => st
  | t :: rest => { st with spinning := false, timers := rest, results := st.results ++ [t] }

/-! ## A mounted wheel over time -/

/-- What happens to a mounted wheel: a click on the spin button, with the two
values that `Math.random()` would return, or the expiry of the oldest timer. -/
inductive Event where
  | click (rand1 rand2 : ℚ) : Event
  | timeout : Event
  deriving DecidableEq, Repr

/-- One event on a wheel that has re-rendered since the event before, so that the
constant `spinning` read by `spin` is the state itself: `onClick={spin}` or the
callback of `setTimeout`. -/
def step (segments : List Segment) (totalWeight : ℚ) (st : WheelState) :
    Event → Option WheelState
  | Event.click rand1 rand2 => spin segments totalWeight st rand1 rand2
  | Event.timeout => some (complete st)

/-- A sequence of events on a wheel, from the state `st`, with a re-render after
each of them; `runMounted` is the sequence in which the renders are events of
their own. -/
def run (segments : List Segment) (totalWeight : ℚ) :
    WheelState → List Event → Option WheelState
  | st, [] => some st
  | st, e :: es =>
    match step segments totalWeight st e with
    | none => none
    | some st1 => run segments totalWeight st1 es

/-- The random values of an event lie in `[0, 1)`, as those of `Math.random()`. -/
def Event.randomsInRange : Event → Prop
  | Event.click rand1 rand2 => 0 ≤ rand1 ∧ rand1 < 1 ∧ 0 ≤ rand2 ∧ rand2 < 1
  | Event.timeout => True

/-- The states that a mounted wheel goes through: spinning with one timer
pending, or idle with none, the rotation a whole number of tenths of a degree. -/
def WheelState.Consistent (st : WheelState) : Prop :=
  ((st.spinning = true ∧ st.timers.length = 1) ∨ (st.spinning = false ∧ st.timers = [])) ∧
    ∃ k : ℤ, st.rotation = (k : ℚ) / 10

/-- Rounding to one decimal, `Math.round(x * 10) / 10`. -/
def round1 (x : ℚ) : ℚ := (mathRound (x * 10) : ℚ) / 10

/-- The constant `N`: `data.length || 1`. -/
def N (data : List Entry) : Nat := if data.length = 0 then 1 else data.length

/-! ## A mounted wheel between renders -/

/-- A mounted wheel: the React state, and the value that the constant `spinning`
has in the closures of the last render, the one that `spin` and the button
read. -/
structure Mounted where
  state : WheelState
  rendered : Bool
  deriving DecidableEq, Repr

/-- A freshly mounted wheel, after its first render. -/
def Mounted.init : Mounted := { state := WheelState.init, rendered := false }

/-- The function `spin` of a render in which the constant `spinning` is
`rendered`, applied to the state `st`: the guard reads the constant, the updates
`setSpinning(true)` and `setRotation((prev) => ...)` act on the state. -/
def spinClosure (segments : List Segment) (totalWeight : ℚ) (rendered : Bool)
    (st : WheelState) (rand1 rand2 : ℚ) : Option WheelState :=
  if segments.length = 0 ∨ rendered = true then some st
  else
    match pickIndexWeighted segments totalWeight rand1 with
    | none => none
    | some winnerIdx =>
      match segments[winnerIdx]? with
      | none => none
      | some winnerSeg =>
        let targetAtTop := 360 - winnerSeg.mid
        let spins := 6 + mathFloor (rand2 * 3)
        let final := (spins : ℚ) * 360 + targetAtTop
        some { spinning := true,
               rotation := st.rotation + (mathRound (final * 10) : ℚ) / 10,
               timers := st.timers ++ [(winnerSeg.item, winnerIdx)],
               results := st.results }

/-- What happens to a mounted wheel: a trigger of `spin`, the expiry of the
oldest timer, or a re-render. -/
inductive DomEvent where
  | click (rand1 rand2 : ℚ) : DomEvent
  | timeout : DomEvent
  | render : DomEvent
  deriving DecidableEq, Repr

/-- One event on a mounted wheel. -/
def stepMounted (segments : List Segment) (totalWeight : ℚ) (m : Mounted) :
    DomEvent → Option Mounted
  | DomEvent.click rand1 rand2 =>
    match spinClosure segments totalWeight m.rendered m.state rand1 rand2 with
    | none => none
    | some st1 => some { state := st1, rendered := m.rendered }
  | DomEvent.timeout => some { state := complete m.state, rendered := m.rendered }
  | DomEvent.render => some { state := m.state, rendered := m.state.spinning }

/-- A sequence of events on a mounted wheel. -/
def runMounted (segments : List Segment) (totalWeight : ℚ) :
    Mounted → List DomEvent → Option Mounted
  | m, [] => some m
  | m, e :: es =>
    match stepMounted segments totalWeight m e with
    | none => none
    | some m1 => runMounted segments totalWeight m1 es

/-! ## The same code in double precision

The definitions above compute in exact rationals.  Those below apply the
rounding of IEEE 754 binary64 after every arithmetic operation, as the
JavaScript engine does; their inputs are meant to be doubles. -/

/-- Rounding to the nearest integer, a tie going to the even one. -/
def roundHalfEven (x : ℚ) : ℤ :=
  let f := Int.floor x
  let d := x - f
  if d < 1 / 2 then f
  else if 1 / 2 < d then f + 1
  else if f % 2 = 0 then f
  else f + 1

/-- The double nearest to `x`, a tie going to the even significand: 53 bits of
significand at the binade of `x`, the binade of the subnormals below `2 ^ -1022`.
The overflow to `Infinity` is left out. -/
def fl (x : ℚ) : ℚ :=
  if x = 0 then 0
  else
    let e := max (Int.log 2 |x|) (-1022)
    (roundHalfEven (x / (2 : ℚ) ^ (e - 52)) : ℚ) * (2 : ℚ) ^ (e - 52)

/-- The reduction `xs.reduce((a, b) => a + b.w, 0)` in doubles. -/
def sumWDouble (xs : List Entry) : ℚ := xs.foldl (fun a b => fl (a + b.w)) 0

/-- The memo `data` in doubles. -/
def dataDouble (items : List (Option Item)) (weights : Option (List JSValue)) : List Entry :=
  let clean := clean items weights
  let sum := sumWDouble clean
  if sum ≤ 0 then clean.map (fun d => { d with w := 1 }) else clean

/-- The `map` that builds `segs`, in doubles. -/
def segsFromDouble (total : ℚ) : Nat → ℚ → List Entry → List Segment
  | _, _, [] => []
  | i, acc, d :: rest =>
    let sweep := fl (fl (d.w / total) * 360)
    let start := acc
    let end_ := fl (acc + sweep)
    { index := i, start := start, end_ := end_, sweep := sweep, mid := fl (fl (start + end_) / 2),
      name := d.name, item := d.item, w := d.w } :: segsFromDouble total (i + 1) end_ rest

/-- The value `totalWeight` in doubles. -/
def totalWeightDouble (data : List Entry) : ℚ := sumWDouble data

/-- The value `segments` in doubles. -/
def segmentsDouble (data : List Entry) : List Segment :=
  segsFromDouble (totalWeightDouble data) 0 0 data

/-- The `for` loop of `pickIndexWeighted` in doubles. -/
def pickLoopDouble : List Segment → ℚ → Option Nat
  | [], _ => none
  | s :: rest, r =>
    let r := fl (r - s.w)
    if r ≤ 0 then some s.index else pickLoopDouble rest r

/-- The function `pickIndexWeighted` in doubles. -/
def pickIndexWeightedDouble (segments : List Segment) (totalWeight : ℚ) (rand : ℚ) :
    Option Nat :=
  let r := fl (rand * totalWeight)
  match pickLoopDouble segments r with
  | some i => some i
  | none => segments[segments.length - 1]?.map (fun s => s.index)

/-- The expression `Math.round(x * 10) / 10` in doubles; `Math.round` is exact. -/
def round1Double (x : ℚ) : ℚ := fl ((mathRound (fl (x * 10)) : ℚ) / 10)

/-- The function `spin` in doubles. -/
def spinDouble (segments : List Segment) (totalWeight : ℚ) (st : WheelState)
    (rand1 rand2 : ℚ) : Option WheelState :=
  if segments.length = 0 ∨ st.spinning = true then some st
  else
    match pickIndexWeightedDouble segments totalWeight rand1 with
    | none => none
    | some winnerIdx =>
      match segments[winnerIdx]? with
      | none => none
      | some winnerSeg =>
        let targetAtTop := fl (360 - winnerSeg.mid)
        let spins := 6 + mathFloor (fl (rand2 * 3))
        let final := fl (fl ((spins : ℚ) * 360) + targetAtTop)
        some { spinning := true,
               rotation := fl (st.rotation + fl ((mathRound (fl (final * 10)) : ℚ) / 10)),
               timers := st.timers ++ [(winnerSeg.item, winnerIdx)],
               results := st.results }

/-! ## The page (`pages/index.js`): picks and reroll -/

/-- The expression `x || 1` on a weight: `undefined`, `null`, `NaN` and `0` are
falsy. -/
def orOne (v : JSValue) : JSValue :=
  match v with
  | JSValue.undefined => JSValue.number (JSNumber.num 1)
  | JSValue.null => JSValue.number (JSNumber.num 1)
  | JSValue.number JSNumber.nan => JSValue.number (JSNumber.num 1)
  | JSValue.number (JSNumber.num q) =>
    if q = 0 then JSValue.number (JSNumber.num 1) else JSValue.number (JSNumber.num q)

/-- The expression `x || null` on a string that may be `undefined`: the empty
string is falsy. -/
def orNull (x : Option String) : Option String :=
  match x with
  | none => none
  | some s => if s = "" then none else some s

/-- The value that `handleResult` gives to `lastWinnerId`:
`item?.place_id || null`. -/
def lastWinnerIdOf (item : Option Item) : Option String :=
  orNull (item.map (fun i => i.place_id))

/-- The list `pickList`: `places.filter((p) => picks.has(p.place_id))`. -/
def pickList (places : List Item) (picks : List String) : List Item :=
  places.filter (fun p => picks.contains p.place_id)

/-- The list `pickWeights`: `pickList.map((p) => weights[p.place_id] || 1)`. -/
def pickWeights (places : List Item) (picks : List String) (weights : String → JSValue) :
    List JSValue :=
  (pickList places picks).map (fun p => orOne (weights p.place_id))

/-- The state `tempSpin`: `{ items, w, exclude, ts }`. -/
structure TempSpin where
  items : List Item
  w : List JSValue
  exclude : String
  ts : Nat
  deriving DecidableEq, Repr

/-- The function `rerollExcludeLast`, as the value of `tempSpin` after the call;
`now` is the value of `Date.now()`. -/
def rerollExcludeLast (places : List Item) (picks : List String) (weights : String → JSValue)
    (lastWinnerId : Option String) (now : Nat) (tempSpin : Option TempSpin) : Option TempSpin :=
  match lastWinnerId with
  | none => tempSpin
  | some id =>
    if id = "" then tempSpin
    else
      let filtered := (pickList places picks).filter (fun p => p.place_id != id)
      let fWeights := filtered.map (fun p => orOne (weights p.place_id))
      some { items := filtered, w := fWeights, exclude := id, ts := now }

/-- The props `items` and `weights` of the wheel rendered for a `tempSpin`. -/
def TempSpin.wheelItems (t : TempSpin) : List (Option Item) := t.items.map some

/-! ## The places handler (`pages/api/places.js`) -/

/-- An upstream place record, with the fields that `fetchType` reads. -/
structure RawPlace where
  place_id : Option String
  name : Option String
  rating : Option ℚ
  user_ratings_total : Option ℚ
  price_level : Option ℚ
  vicinity : Option String
  formatted_address : Option String
  location : Option (ℚ × ℚ)
  types : Option (List String)
  open_now : Option Bool
  photo_reference : Option String
  deriving DecidableEq, Repr

/-- A value of the map `unique`, a record of the response. -/
structure Place where
  place_id : String
  name : Option String
  rating : Option ℚ
  user_ratings_total : ℚ
  price_level : Option ℚ
  address : String
  location : Option (ℚ × ℚ)
  types : List String
  open_now : Option Bool
  photo_ref : Option String
  deriving DecidableEq, Repr

/-- The record that `fetchType` stores for an upstream place with identifier `id`. -/
def toPlace (id : String) (place : RawPlace) : Place :=
  { place_id := id,
    name := place.name,
    rating := place.rating,
    user_ratings_total := place.user_ratings_total.getD 0,
    price_level := place.price_level,
    address := (place.vicinity.orElse (fun _ => place.formatted_address)).getD "",
    location := place.location,
    types := place.types.getD [],
    open_now := place.open_now,
    photo_ref := place.photo_reference }

/-- The body of `data.results.forEach`: a place without identifier is skipped, a
place whose identifier is already a key of `unique` is skipped, any other place
is added at the end. -/
def addPlace (unique : List Place) (place : RawPlace) : List Place :=
  match place.place_id with
  | none => unique
  | some id =>
    if id = "" then unique
    else if unique.any (fun u => u.place_id == id) then unique
    else unique ++ [toPlace id place]

/-- The end of `fetchType`: a response without a `results` array is ignored. -/
def addResults (unique : List Place) (results : Option (List RawPlace)) : List Place :=
  match results with
  | none => unique
  | some rs => rs.foldl addPlace unique

/-- The comparator of the handler. -/
def compareRating (a b : Place) : ℚ :=
  let rA := a.rating.getD 0
  let rB := b.rating.getD 0
  if rB ≠ rA then rB - rA else b.user_ratings_total - a.user_ratings_total

/-- The order of the comparator: `a` does not come after `b`. -/
def ratingLe (a b : Place) : Prop := compareRating a b ≤ 0

instance ratingLe_decidable : DecidableRel ratingLe :=
  fun a b => inferInstanceAs (Decidable (compareRating a b ≤ 0))

/-- The method `Array.prototype.sort` with the comparator of the handler.  The
sort is stable and the comparator is a total preorder, which fixes the result:
equal elements keep their order. -/
def sortByRating (ps : List Place) : List Place := List.insertionSort ratingLe ps

/-- The body `{ count, results }` of the response. -/
structure PlacesResponse where
  count : Nat
  results : List Place
  deriving DecidableEq, Repr

/-- The handler, on the upstream responses in the order in which they arrive. -/
def handler (responses : List (Option (List RawPlace))) : PlacesResponse :=
  let unique := responses.foldl addResults []
  let results := (sortByRating unique).take 60
  { count := results.length, results := results }

/-- The upstream records of all the responses that carry a `results` array, in
the order in which the handler sees them. -/
def gathered : List (Option (List RawPlace)) → List RawPlace
  | [] => []
  | none :: rest => gathered rest
  | some rs :: rest => rs ++ gathered rest

/-! ## Label wrapping (`wrapLabel`) -/

/-- A JavaScript string as its UTF-16 code units, the units that `length` and
`slice` count. -/
abbrev JSString := List Nat

/-- The code units of a character. -/
def utf16 (c : Char) : JSString :=
  if c.toNat < 0x10000 then [c.toNat]
  else [0xD800 + (c.toNat - 0x10000) / 0x400, 0xDC00 + (c.toNat - 0x10000) % 0x400]

/-- The code units of a string. -/
def toUnits (s : String) : JSString := (s.data.map utf16).flatten

/-- The class `\s` of a regular expression: white space and line terminators. -/
def isSpaceUnit (n : Nat) : Bool :=
  n = 0x9 || n = 0xA || n = 0xB || n = 0xC || n = 0xD || n = 0x20 || n = 0xA0 ||
  n = 0x1680 || (0x2000 ≤ n && n ≤ 0x200A) || n = 0x2028 || n = 0x2029 ||
  n = 0x202F || n = 0x205F || n = 0x3000 || n = 0xFEFF

/-- The pieces of `split(/\s+/)`, the first of them under construction;
`prevSpace` tells that the unit before was white space, so that a run of white
space separates once. -/
def splitGo : Bool → JSString → List JSString
  | _, [] => [[]]
  | prevSpace, c :: cs =>
    if isSpaceUnit c then
      if prevSpace then splitGo true cs else [] :: splitGo true cs
    else
      match splitGo false cs with
      | [] => [[c]]
      | w :: ws => (c :: w) :: ws

/-- The expression `str.split(/\s+/)`. -/
def splitSpaces (str : JSString) : List JSString := splitGo false str

/-- The unit of the space character. -/
def spaceUnit : Nat := 0x20

/-- The unit of the ellipsis character. -/
def ellipsisUnit : Nat := 0x2026

/-- The constant `perLine`: narrow wedges get fewer characters per line. -/
def perLine (sweepDeg : ℚ) : Nat :=
  if sweepDeg ≥ 90 then 20
  else if sweepDeg ≥ 60 then 16
  else if sweepDeg ≥ 30 then 13
  else if sweepDeg ≥ 20 then 11
  else if sweepDeg ≥ 12 then 9
  else 7

/-- The body of the loop over the words, on the pair of `lines` and `cur`; the
empty string is falsy. -/
def wrapStep (perLine : Nat) (state : List JSString × JSString) (w : JSString) :
    List JSString × JSString :=
  let lines := state.1
  let cur := state.2
  let next := if cur ≠ [] then cur ++ [spaceUnit] ++ w else w
  if next.length ≤ perLine then (lines, next)
  else (if cur ≠ [] then lines ++ [cur] else lines, w)

/-- The lines of the greedy word wrap: the loop, then `if (cur) lines.push(cur)`. -/
def greedyLines (perLine : Nat) (words : List JSString) : List JSString :=
  let state := words.foldl (wrapStep perLine) ([], [])
  if state.2 ≠ [] then state.1 ++ [state.2] else state.1

/-- The limit to 3 lines, the last of them ellipsized. -/
def limitLines (perLine : Nat) (lines : List JSString) : List JSString :=
  if lines.length > 3 then
    let lines := lines.take 3
    match lines[2]? with
    | none => lines
    | some last =>
      lines.set 2
        (if last.length > perLine then last.take (perLine - 1) ++ [ellipsisUnit]
         else last ++ [ellipsisUnit])
  else lines

/-- The function `wrapLabel`; `none` is a missing label, and `str || ""` makes
it the empty string. -/
def wrapLabel (str : Option JSString) (sweepDeg : ℚ) : List JSString :=
  let perLine := perLine sweepDeg
  let words := splitSpaces (str.getD [])
  limitLines perLine (greedyLines perLine words)

/-- The identifiers that the handler sees, each once: the `place_id`s of the
gathered records that have one. -/
def seenIds (responses : List (Option (List RawPlace))) : List String :=
  ((gathered responses).filterMap (fun p => orNull p.place_id)).dedup

/-! ## Concrete inputs -/

/-- A finite number as a raw weight. -/
def jsNum (q : ℚ) : JSValue := JSValue.number (JSNumber.num q)

/-- The item `{ name: "Cafe" }`. -/
def cafe : Option Item := some { name := some "Cafe", place_id := "cafe" }

/-- The item `{ name: "Park" }`. -/
def park : Option Item := some { name := some "Park", place_id := "park" }

/-- The item `{ name: "X" }`. -/
def itemX : Option Item := some { name := some "X", place_id := "x" }

/-- An item whose name is a single space. -/
def blankItem : Option Item := some { name := some " ", place_id := "blank" }

/-- The segment of Cafe on the wheel of Cafe and Park with equal weights. -/
def cafeSeg : Segment :=
  { index := 0, start := 0, end_ := 180, sweep := 180, mid := 90,
    name := "Cafe", item := cafe, w := 1 }

/-- The segment of Park on the wheel of Cafe and Park with equal weights. -/
def parkSeg : Segment :=
  { index := 1, start := 180, end_ := 360, sweep := 180, mid := 270,
    name := "Park", item := park, w := 1 }

/-- The segment of Park on the wheel of Cafe and Park with weights 1 and 3. -/
def parkSeg3 : Segment :=
  { index := 1, start := 90, end_ := 360, sweep := 270, mid := 225,
    name := "Park", item := park, w := 3 }

/-- The place A. -/
def placeA : Item := { name := some "A", place_id := "a" }

/-- The place B. -/
def placeB : Item := { name := some "B", place_id := "b" }

/-- The place C. -/
def placeC : Item := { name := some "C", place_id := "c" }

/-- The weight map `{ a: 1, b: 2, c: 1 }`. -/
def weightsABC : String → JSValue := fun id =>
  if id = "a" then jsNum 1 else if id = "b" then jsNum 2 else if id = "c" then jsNum 1
  else JSValue.undefined

/-- The segment of Cafe on the wheel of Cafe and Park with weights 0 and 1. -/
def cafeSeg0 : Segment :=
  { index := 0, start := 0, end_ := 0, sweep := 0, mid := 0,
    name := "Cafe", item := cafe, w := 0 }

/-- The segment of Park on the wheel of Cafe and Park with weights 0 and 1. -/
def parkSeg1 : Segment :=
  { index := 1, start := 0, end_ := 360, sweep := 360, mid := 180,
    name := "Park", item := park, w := 1 }

/-- The label of four words of seven letters. -/
def fourWords : JSString := toUnits "aaaaaaa bbbbbbb ccccccc ddddddd"

/-- An upstream place with an identifier, a rating and a review count. -/
def rawPlaceOf (id : String) (rating reviews : ℚ) : RawPlace :=
  { place_id := some id, name := none, rating := some rating,
    user_ratings_total := some reviews, price_level := none, vicinity := none,
    formatted_address := none, location := none, types := none, open_now := none,
    photo_reference := none }

/-- The segment of Cafe on the wheel of Cafe and Park with weights 1 and 15. -/
def cafeSeg15 : Segment :=
  { index := 0, start := 0, end_ := 45 / 2, sweep := 45 / 2, mid := 45 / 4,
    name := "Cafe", item := cafe, w := 1 }

/-- The segment of Park on the wheel of Cafe and Park with weights 1 and 15. -/
def parkSeg15 : Segment :=
  { index := 1, start := 45 / 2, end_ := 360, sweep := 675 / 2, mid := 765 / 4,
    name := "Park", item := park, w := 15 }

/-- The double written `2508.8`. -/
def double2508_8 : ℚ := 2758454771764429 / 1099511627776

/-- The double written `5017.6`. -/
def double5017_6 : ℚ := 2758454771764429 / 549755813888

/-- The double written `7526.4`. -/
def double7526_4 : ℚ := 4137682157646643 / 549755813888

/-- The double written `7526.400000000001`, one unit in the last place above. -/
def double7526_4_up : ℚ := 8275364315293287 / 1099511627776

/-! ## Cumulative sums used in the statements -/

/-- The cumulative weight `w_0 + ... + w_(k-1)` of the first `k` segments. -/
def cumW (segs : List Segment) (k : Nat) : ℚ := ((segs.take k).map Segment.w).sum

/-- The sum of the sweeps of the first `k` entries, for a given total. -/
def sweepSum (total : ℚ) (ds : List Entry) (k : Nat) : ℚ :=
  ((ds.take k).map (fun d => (d.w / total) * 360)).sum

end Wheel

namespace Wheel

/-! ## Auxiliary facts: sums -/

theorem foldl_add_w (xs : List Entry) (a : ℚ) :
    xs.foldl (fun a b => a + b.w) a = a + (xs.map Entry.w).sum := by
  induction xs generalizing a with
  | nil => simp
  | cons x xs ih => simp [ih, add_assoc]

theorem sumW_eq_sum (xs : List Entry) : sumW xs = (xs.map Entry.w).sum := by
  simp [sumW, foldl_add_w]

theorem sum_nonneg_of_forall {l : List ℚ} (h : ∀ x ∈ l, 0 ≤ x) : 0 ≤ l.sum := by
  induction l with
  | nil => simp
  | cons x xs ih =>
    simp only [List.sum_cons]
    have h1 := h x (by simp)
    have h2 := ih (fun y hy => h y (by simp [hy]))
    linarith

/-! ## Auxiliary facts: the normalizer -/

theorem resolveWeight_nonneg (v : JSValue) : 0 ≤ resolveWeight v := by
  unfold resolveWeight
  cases v with
  | undefined => simp [toNumber, mathMax0, orZero]
  | null => simp [toNumber, mathMax0, orZero]
  | number n =>
    cases n with
    | nan => simp [toNumber, mathMax0, orZero]
    | num q =>
      simp only [toNumber, mathMax0, orZero]
      split
      · exact le_refl _
      · exact le_max_left _ _

theorem cleanFrom_length (weights : Option (List JSValue)) (i : Nat) (items : List (Option Item)) :
    (cleanFrom weights i items).length = items.length := by
  induction items generalizing i with
  | nil => simp [cleanFrom]
  | cons it rest ih => simp [cleanFrom, ih]

theorem cleanFrom_getElem? (weights : Option (List JSValue)) (i : Nat)
    (items : List (Option Item)) (k : Nat) :
    (cleanFrom weights i items)[k]? =
      (items[k]?).map (fun it =>
        { name := entryName it, item := it, w := resolveWeight (weightAt weights (i + k)) }) := by
  induction items generalizing i k with
  | nil => simp [cleanFrom]
  | cons it rest ih =>
    cases k with
    | zero => simp [cleanFrom]
    | succ k =>
      simp only [cleanFrom, List.getElem?_cons_succ, ih]
      have : i + 1 + k = i + (k + 1) := by omega
      rw [this]

theorem clean_length (items : List (Option Item)) (weights : Option (List JSValue)) :
    (clean items weights).length = items.length := cleanFrom_length weights 0 items

theorem clean_getElem? (items : List (Option Item)) (weights : Option (List JSValue)) (k : Nat) :
    (clean items weights)[k]? =
      (items[k]?).map (fun it =>
        { name := entryName it, item := it, w := resolveWeight (weightAt weights k) }) := by
  simp [clean, cleanFrom_getElem?]

theorem clean_w_nonneg (items : List (Option Item)) (weights : Option (List JSValue)) :
    ∀ d ∈ clean items weights, 0 ≤ d.w := by
  intro d hd
  obtain ⟨k, hk⟩ := List.getElem?_of_mem hd
  rw [clean_getElem?] at hk
  cases hit : items[k]? with
  | none => simp [hit] at hk
  | some it =>
    simp [hit] at hk
    rw [← hk]
    exact resolveWeight_nonneg _

theorem data_length (items : List (Option Item)) (weights : Option (List JSValue)) :
    (data items weights).length = items.length := by
  unfold data
  simp only
  split <;> simp [clean_length]

theorem data_w_nonneg (items : List (Option Item)) (weights : Option (List JSValue)) :
    ∀ d ∈ data items weights, 0 ≤ d.w := by
  intro d hd
  unfold data at hd
  simp only at hd
  split at hd
  · simp only [List.mem_map] at hd
    obtain ⟨c, _, hc⟩ := hd
    rw [← hc]
    norm_num
  · exact clean_w_nonneg items weights d hd

theorem sum_map_w_one (xs : List Entry) :
    ((xs.map (fun d => ({ d with w := 1 } : Entry))).map Entry.w).sum = (xs.length : ℚ) := by
  induction xs with
  | nil => simp
  | cons x xs ih =>
    simp only [List.map_cons, List.sum_cons, ih, List.length_cons]
    push_cast
    ring

theorem totalWeight_data_pos (items : List (Option Item)) (weights : Option (List JSValue))
    (h : items ≠ []) : 0 < totalWeight (data items weights) := by
  unfold totalWeight data
  simp only
  split
  · rw [sumW_eq_sum, sum_map_w_one, clean_length]
    have : 0 < items.length := List.length_pos.mpr h
    exact_mod_cast this
  · next hs => exact lt_of_not_ge hs

end Wheel

namespace Wheel

/-! ## Auxiliary facts: the geometry step -/

theorem segsFrom_length (total : ℚ) (i : Nat) (acc : ℚ) (ds : List Entry) :
    (segsFrom total i acc ds).length = ds.length := by
  induction ds generalizing i acc with
  | nil => simp [segsFrom]
  | cons d rest ih => simp [segsFrom, ih]

theorem sweepSum_zero (total : ℚ) (ds : List Entry) : sweepSum total ds 0 = 0 := by
  simp [sweepSum]

theorem sweepSum_cons_succ (total : ℚ) (d : Entry) (ds : List Entry) (k : Nat) :
    sweepSum total (d :: ds) (k + 1) = (d.w / total) * 360 + sweepSum total ds k := by
  simp [sweepSum]

theorem sweepSum_succ (total : ℚ) (ds : List Entry) (k : Nat) (d : Entry)
    (h : ds[k]? = some d) :
    sweepSum total ds (k + 1) = sweepSum total ds k + (d.w / total) * 360 := by
  induction ds generalizing k with
  | nil => simp at h
  | cons x xs ih =>
    cases k with
    | zero =>
      simp at h
      simp [sweepSum, h]
    | succ k =>
      simp only [List.getElem?_cons_succ] at h
      rw [sweepSum_cons_succ, sweepSum_cons_succ, ih k h]
      ring

theorem sweepSum_all (total : ℚ) (ds : List Entry) (k : Nat) (h : ds.length ≤ k) :
    sweepSum total ds k = (ds.map Entry.w).sum / total * 360 := by
  induction ds generalizing k with
  | nil => simp [sweepSum]
  | cons x xs ih =>
    cases k with
    | zero => simp at h
    | succ k =>
      simp only [List.length_cons, Nat.add_le_add_iff_right] at h
      rw [sweepSum_cons_succ, ih k h]
      simp only [List.map_cons, List.sum_cons]
      ring

/-- The segment that the geometry step builds at position `k`. -/
theorem segsFrom_getElem? (total : ℚ) (i : Nat) (acc : ℚ) (ds : List Entry) (k : Nat) :
    (segsFrom total i acc ds)[k]? =
      (ds[k]?).map (fun d =>
        { index := i + k,
          start := acc + sweepSum total ds k,
          end_ := acc + sweepSum total ds k + (d.w / total) * 360,
          sweep := (d.w / total) * 360,
          mid := (acc + sweepSum total ds k + (acc + sweepSum total ds k + (d.w / total) * 360)) / 2,
          name := d.name, item := d.item, w := d.w }) := by
  induction ds generalizing i acc k with
  | nil => simp [segsFrom]
  | cons d rest ih =>
    cases k with
    | zero => simp [segsFrom, sweepSum_zero]
    | succ k =>
      simp only [segsFrom, List.getElem?_cons_succ, ih, sweepSum_cons_succ]
      have e1 : i + 1 + k = i + (k + 1) := by omega
      have e2 : acc + d.w / total * 360 + sweepSum total rest k =
          acc + (d.w / total * 360 + sweepSum total rest k) := by ring
      rw [e1, e2]

theorem segments_length (ds : List Entry) : (segments ds).length = ds.length :=
  segsFrom_length _ _ _ _

theorem segments_getElem? (ds : List Entry) (k : Nat) :
    (segments ds)[k]? =
      (ds[k]?).map (fun d =>
        { index := k,
          start := sweepSum (totalWeight ds) ds k,
          end_ := sweepSum (totalWeight ds) ds k + (d.w / totalWeight ds) * 360,
          sweep := (d.w / totalWeight ds) * 360,
          mid := (sweepSum (totalWeight ds) ds k +
            (sweepSum (totalWeight ds) ds k + (d.w / totalWeight ds) * 360)) / 2,
          name := d.name, item := d.item, w := d.w }) := by
  simp [segments, segsFrom_getElem?]

theorem segsFrom_map_w (total : ℚ) (i : Nat) (acc : ℚ) (ds : List Entry) :
    (segsFrom total i acc ds).map Segment.w = ds.map Entry.w := by
  induction ds generalizing i acc with
  | nil => simp [segsFrom]
  | cons d rest ih => simp [segsFrom, ih]

theorem segsFrom_map_index (total : ℚ) (i : Nat) (acc : ℚ) (ds : List Entry) :
    (segsFrom total i acc ds).map Segment.index = List.range' i ds.length := by
  induction ds generalizing i acc with
  | nil => simp [segsFrom]
  | cons d rest ih => simp [segsFrom, ih, List.range'_succ]

end Wheel

namespace Wheel

/-! ## Auxiliary facts: cumulative weights and the pick loop -/

theorem cumW_zero (segs : List Segment) : cumW segs 0 = 0 := by
  simp [cumW]

theorem cumW_cons_succ (s : Segment) (segs : List Segment) (k : Nat) :
    cumW (s :: segs) (k + 1) = s.w + cumW segs k := by
  simp [cumW]

theorem cumW_succ (segs : List Segment) (k : Nat) (s : Segment) (h : segs[k]? = some s) :
    cumW segs (k + 1) = cumW segs k + s.w := by
  induction segs generalizing k with
  | nil => simp at h
  | cons x xs ih =>
    cases k with
    | zero =>
      simp at h
      simp [cumW, h]
    | succ k =>
      simp only [List.getElem?_cons_succ] at h
      rw [cumW_cons_succ, cumW_cons_succ, ih k h]
      ring

theorem cumW_all (segs : List Segment) (k : Nat) (h : segs.length ≤ k) :
    cumW segs k = (segs.map Segment.w).sum := by
  simp [cumW, List.take_of_length_le h]

theorem cumW_mono_succ (segs : List Segment) (hw : ∀ s ∈ segs, 0 ≤ s.w) (k : Nat) :
    cumW segs k ≤ cumW segs (k + 1) := by
  cases h : segs[k]? with
  | none =>
    have hk : segs.length ≤ k := by
      rcases Nat.lt_or_ge k segs.length with hlt | hge
      · simp [List.getElem?_eq_getElem hlt] at h
      · exact hge
    rw [cumW_all segs k hk, cumW_all segs (k + 1) (by omega)]
  | some s =>
    rw [cumW_succ segs k s h]
    have := hw s (List.getElem?_mem h)
    linarith

theorem cumW_mono (segs : List Segment) (hw : ∀ s ∈ segs, 0 ≤ s.w) {j k : Nat} (h : j ≤ k) :
    cumW segs j ≤ cumW segs k := by
  induction k with
  | zero =>
    have : j = 0 := by omega
    rw [this]
  | succ k ih =>
    rcases Nat.lt_or_ge j (k + 1) with hlt | hge
    · exact le_trans (ih (by omega)) (cumW_mono_succ segs hw k)
    · have : j = k + 1 := by omega
      rw [this]

theorem cumW_nonneg (segs : List Segment) (hw : ∀ s ∈ segs, 0 ≤ s.w) (k : Nat) :
    0 ≤ cumW segs k := by
  have := cumW_mono segs hw (Nat.zero_le k)
  rwa [cumW_zero] at this

/-- The loop returns `j` exactly when `j` is the first position whose cumulative
weight reaches the draw. -/
theorem pickLoop_eq_some (segs : List Segment) (i : Nat) (r : ℚ) (j : Nat)
    (hidx : segs.map Segment.index = List.range' i segs.length) :
    pickLoop segs r = some j ↔
      ∃ k, k < segs.length ∧ j = i + k ∧ (∀ m, m < k → cumW segs (m + 1) < r) ∧
        r ≤ cumW segs (k + 1) := by
  induction segs generalizing i r with
  | nil => simp [pickLoop]
  | cons s rest ih =>
    simp only [List.map_cons, List.length_cons, List.range'_succ, List.cons.injEq] at hidx
    obtain ⟨hs, hrest⟩ := hidx
    simp only [pickLoop]
    by_cases hr : r - s.w ≤ 0
    · rw [if_pos hr]
      constructor
      · intro h
        simp only [Option.some.injEq] at h
        refine ⟨0, by simp, by omega, by intro m hm; omega, ?_⟩
        rw [cumW_cons_succ, cumW_zero]
        linarith
      · rintro ⟨k, _, hj, hall, _⟩
        cases k with
        | zero => simp [hs, hj]
        | succ k =>
          have := hall 0 (by omega)
          rw [cumW_cons_succ, cumW_zero] at this
          linarith
    · rw [if_neg hr, ih (i + 1) (r - s.w) hrest]
      constructor
      · rintro ⟨k, hk, hj, hall, hle⟩
        refine ⟨k + 1, by simp [hk], by omega, ?_, ?_⟩
        · intro m hm
          cases m with
          | zero =>
            rw [cumW_cons_succ, cumW_zero]
            linarith
          | succ m =>
            rw [cumW_cons_succ]
            have := hall m (by omega)
            linarith
        · rw [cumW_cons_succ]
          linarith
      · rintro ⟨k, hk, hj, hall, hle⟩
        cases k with
        | zero =>
          rw [cumW_cons_succ, cumW_zero] at hle
          exact absurd (by linarith) hr
        | succ k =>
          refine ⟨k, by simpa using hk, by omega, ?_, ?_⟩
          · intro m hm
            have := hall (m + 1) (by omega)
            rw [cumW_cons_succ] at this
            linarith
          · rw [cumW_cons_succ] at hle
            linarith

/-- The loop falls through exactly when no cumulative weight reaches the draw. -/
theorem pickLoop_eq_none (segs : List Segment) (r : ℚ) :
    pickLoop segs r = none ↔ ∀ m, m < segs.length → cumW segs (m + 1) < r := by
  induction segs generalizing r with
  | nil => simp [pickLoop]
  | cons s rest ih =>
    simp only [pickLoop]
    by_cases hr : r - s.w ≤ 0
    · rw [if_pos hr]
      constructor
      · intro h
        exact absurd h (by simp)
      · intro h
        have := h 0 (by simp)
        rw [cumW_cons_succ, cumW_zero] at this
        linarith
    · rw [if_neg hr, ih]
      constructor
      · intro h m hm
        cases m with
        | zero =>
          rw [cumW_cons_succ, cumW_zero]
          linarith
        | succ m =>
          rw [cumW_cons_succ]
          have := h m (by simpa using hm)
          linarith
      · intro h m hm
        have := h (m + 1) (by simpa using hm)
        rw [cumW_cons_succ] at this
        linarith

theorem segments_map_index (ds : List Entry) :
    (segments ds).map Segment.index = List.range' 0 (segments ds).length := by
  rw [segments_length]
  exact segsFrom_map_index _ _ _ _

theorem segments_w_nonneg (items : List (Option Item)) (weights : Option (List JSValue)) :
    ∀ s ∈ segments (data items weights), 0 ≤ s.w := by
  intro s hs
  have hmem : s.w ∈ (segments (data items weights)).map Segment.w := List.mem_map_of_mem _ hs
  rw [segments, segsFrom_map_w] at hmem
  obtain ⟨d, hd, hdw⟩ := List.mem_map.mp hmem
  rw [← hdw]
  exact data_w_nonneg items weights d hd

theorem cumW_segments_all (ds : List Entry) (k : Nat) (h : ds.length ≤ k) :
    cumW (segments ds) k = totalWeight ds := by
  rw [cumW_all _ _ (by rw [segments_length]; exact h), segments, segsFrom_map_w, totalWeight,
    sumW_eq_sum]

/-- With the draw `r`, the pick over the segments of a non-empty wheel returns
the first position whose cumulative weight reaches `r`, or the last position. -/
theorem pick_segments (items : List (Option Item)) (weights : Option (List JSValue)) (r : ℚ)
    (h : items ≠ []) :
    ∃ i, pickIndexWeighted (segments (data items weights)) (totalWeight (data items weights))
          (r / totalWeight (data items weights)) = some i ∧
      i < (segments (data items weights)).length ∧
      (∀ j, j < i → cumW (segments (data items weights)) (j + 1) < r) ∧
      (r ≤ cumW (segments (data items weights)) (i + 1) ∨
        (i = (segments (data items weights)).length - 1 ∧
          ∀ j, j < (segments (data items weights)).length →
            cumW (segments (data items weights)) (j + 1) < r)) := by
  have hpos := totalWeight_data_pos items weights h
  have hlen : 0 < (segments (data items weights)).length := by
    rw [segments_length, data_length]
    exact List.length_pos.mpr h
  have hr : r / totalWeight (data items weights) * totalWeight (data items weights) = r :=
    div_mul_cancel₀ r (ne_of_gt hpos)
  unfold pickIndexWeighted
  simp only [hr]
  cases hp : pickLoop (segments (data items weights)) r with
  | some j =>
    obtain ⟨k, hk, hj, hall, hle⟩ :=
      (pickLoop_eq_some _ 0 r j (segments_map_index _)).mp hp
    have hjk : j = k := by omega
    subst hjk
    exact ⟨j, rfl, hk, hall, Or.inl hle⟩
  | none =>
    have hall := (pickLoop_eq_none _ r).mp hp
    have hlast : (segments (data items weights)).length - 1 <
        (segments (data items weights)).length := by omega
    have hidx := segments_getElem? (data items weights) ((segments (data items weights)).length - 1)
    have hlast2 : (segments (data items weights)).length - 1 < (data items weights).length := by
      rw [← segments_length]; exact hlast
    rw [List.getElem?_eq_getElem hlast2] at hidx
    refine ⟨(segments (data items weights)).length - 1, ?_, hlast, ?_, Or.inr ⟨rfl, hall⟩⟩
    · simp [List.get?_eq_getElem?, hidx]
    · intro j hj
      exact hall j (by omega)

end Wheel

namespace Wheel

/-! ## Evaluation on the concrete inputs -/

theorem data_cafe_park :
    data [cafe, park] (some [jsNum 1, jsNum 1]) =
      [{ name := "Cafe", item := cafe, w := 1 }, { name := "Park", item := park, w := 1 }] := by
  simp [data, clean, cleanFrom, sumW, resolveWeight, weightAt, toNumber, mathMax0, orZero, jsNum,
    entryName, itemName, cafe, park, trim, trimChars, jsIsWhiteSpace]

theorem segments_cafe_park :
    segments (data [cafe, park] (some [jsNum 1, jsNum 1])) = [cafeSeg, parkSeg] := by
  rw [data_cafe_park]
  simp [segments, segsFrom, totalWeight, sumW, cafeSeg, parkSeg]
  norm_num

theorem data_itemX_zero :
    data [itemX] (some [jsNum 0]) = [{ name := "X", item := itemX, w := 1 }] := by
  simp [data, clean, cleanFrom, sumW, resolveWeight, weightAt, toNumber, mathMax0, orZero, jsNum,
    entryName, itemName, itemX, trim, trimChars, jsIsWhiteSpace]

theorem segments_itemX_zero :
    segments (data [itemX] (some [jsNum 0])) =
      [{ index := 0, start := 0, end_ := 360, sweep := 360, mid := 180,
         name := "X", item := itemX, w := 1 }] := by
  rw [data_itemX_zero]
  simp [segments, segsFrom, totalWeight, sumW]
  norm_num

/-! ## Geometry: proportional sweeps and tiling -/

/-- C1: every segment built by the geometry step sits over the normalized entry
of the same position, and its angular width `end - start` is
`360 * w / totalWeight`, with `w` that entry's weight and `totalWeight` the sum of
all normalized weights. -/
theorem segment_sweep_proportional (items : List (Option Item))
    (weights : Option (List JSValue)) (i : Nat) (s : Segment)
    (h : (segments (data items weights))[i]? = some s) :
    (segments (data items weights)).length = items.length ∧
    totalWeight (data items weights) = ((data items weights).map Entry.w).sum ∧
    ∃ d, (data items weights)[i]? = some d ∧ s.w = d.w ∧
      s.end_ - s.start = 360 * d.w / totalWeight (data items weights) := by
  refine ⟨by rw [segments_length, data_length], sumW_eq_sum _, ?_⟩
  rw [segments_getElem?] at h
  cases hd : (data items weights)[i]? with
  | none => simp [hd] at h
  | some d =>
    simp only [hd, Option.map_some', Option.some.injEq] at h
    refine ⟨d, rfl, ?_, ?_⟩
    · rw [← h]
    · rw [← h]
      simp only
      ring

/-- Witness of C1 on the items Cafe and Park with weights 1 and 1. -/
theorem segment_sweep_proportional_witness :
    (segments (data [cafe, park] (some [jsNum 1, jsNum 1]))).length = [cafe, park].length ∧
    totalWeight (data [cafe, park] (some [jsNum 1, jsNum 1])) =
      ((data [cafe, park] (some [jsNum 1, jsNum 1])).map Entry.w).sum ∧
    ∃ d, (data [cafe, park] (some [jsNum 1, jsNum 1]))[1]? = some d ∧ parkSeg.w = d.w ∧
      parkSeg.end_ - parkSeg.start =
        360 * d.w / totalWeight (data [cafe, park] (some [jsNum 1, jsNum 1])) :=
  segment_sweep_proportional [cafe, park] (some [jsNum 1, jsNum 1]) 1 parkSeg
    (by rw [segments_cafe_park]; rfl)

/-- C2: the segments of a non-empty item list tile the circle in order: the
first starts at 0, each later one starts where the previous one ends, `mid` is
the midpoint, and the last one ends at exactly 360; Cafe and Park with weights 1
and 1 give `[0,180]` and `[180,360]`. -/
theorem segments_tile_circle (items : List (Option Item)) (weights : Option (List JSValue))
    (h : items ≠ []) :
    (∃ s, (segments (data items weights))[0]? = some s ∧ s.start = 0) ∧
    (∀ (i : Nat) (s t : Segment), (segments (data items weights))[i]? = some s →
      (segments (data items weights))[i + 1]? = some t → t.start = s.end_) ∧
    (∀ (i : Nat) (s : Segment), (segments (data items weights))[i]? = some s → s.mid = (s.start + s.end_) / 2) ∧
    (∃ s, (segments (data items weights))[(segments (data items weights)).length - 1]? = some s ∧
      s.end_ = 360) ∧
    (segments (data [cafe, park] (some [jsNum 1, jsNum 1]))).map (fun s => (s.start, s.end_)) =
      [(0, 180), (180, 360)] := by
  have hpos := totalWeight_data_pos items weights h
  have hlen : 0 < (data items weights).length := by
    rw [data_length]; exact List.length_pos.mpr h
  refine ⟨?_, ?_, ?_, ?_, ?_⟩
  · rw [segments_getElem?, List.getElem?_eq_getElem hlen]
    exact ⟨_, rfl, sweepSum_zero (totalWeight (data items weights)) (data items weights)⟩
  · intro i s t hs ht
    rw [segments_getElem?] at hs ht
    cases hd : (data items weights)[i]? with
    | none => simp [hd] at hs
    | some d =>
      cases he : (data items weights)[i + 1]? with
      | none => simp [he] at ht
      | some e =>
        simp only [hd, he, Option.map_some', Option.some.injEq] at hs ht
        rw [← hs, ← ht]
        simp only
        exact sweepSum_succ _ _ _ _ hd
  · intro i s hs
    rw [segments_getElem?] at hs
    cases hd : (data items weights)[i]? with
    | none => simp [hd] at hs
    | some d =>
      simp only [hd, Option.map_some', Option.some.injEq] at hs
      rw [← hs]
  · rw [segments_length]
    have hlast : (data items weights).length - 1 < (data items weights).length := by omega
    rw [segments_getElem?, List.getElem?_eq_getElem hlast]
    refine ⟨_, rfl, ?_⟩
    simp only
    have hsucc := sweepSum_succ (totalWeight (data items weights)) (data items weights)
      ((data items weights).length - 1) _ (List.getElem?_eq_getElem hlast)
    have hall := sweepSum_all (totalWeight (data items weights)) (data items weights)
      ((data items weights).length - 1 + 1) (by omega)
    rw [← hsucc, hall, ← sumW_eq_sum]
    unfold totalWeight at hpos ⊢
    rw [div_self (ne_of_gt hpos)]
    norm_num
  · rw [segments_cafe_park]
    rfl

/-- Witness of C2 on the items Cafe and Park with absent weights. -/
theorem segments_tile_circle_witness :
    (∃ s, (segments (data [cafe, park] none))[0]? = some s ∧ s.start = 0) ∧
    (∀ (i : Nat) (s t : Segment), (segments (data [cafe, park] none))[i]? = some s →
      (segments (data [cafe, park] none))[i + 1]? = some t → t.start = s.end_) ∧
    (∀ (i : Nat) (s : Segment), (segments (data [cafe, park] none))[i]? = some s → s.mid = (s.start + s.end_) / 2) ∧
    (∃ s, (segments (data [cafe, park] none))[(segments (data [cafe, park] none)).length - 1]? =
      some s ∧ s.end_ = 360) ∧
    (segments (data [cafe, park] (some [jsNum 1, jsNum 1]))).map (fun s => (s.start, s.end_)) =
      [(0, 180), (180, 360)] :=
  segments_tile_circle [cafe, park] none (by simp)

end Wheel

namespace Wheel

/-! ## Selection -/

theorem cumW_segments_eq (ds : List Entry) (k : Nat) :
    cumW (segments ds) k = ((ds.take k).map Entry.w).sum := by
  rw [cumW, List.map_take, segments, segsFrom_map_w, ← List.map_take]

theorem sweepSum_eq (total : ℚ) (ds : List Entry) (k : Nat) :
    sweepSum total ds k = ((ds.take k).map Entry.w).sum / total * 360 := by
  induction ds generalizing k with
  | nil => simp [sweepSum]
  | cons d rest ih =>
    cases k with
    | zero => simp [sweepSum]
    | succ k =>
      rw [sweepSum_cons_succ, ih]
      simp only [List.take_succ_cons, List.map_cons, List.sum_cons]
      ring

theorem cumW_segments_le_total (items : List (Option Item)) (weights : Option (List JSValue))
    (k : Nat) :
    cumW (segments (data items weights)) k ≤ totalWeight (data items weights) := by
  have h1 := cumW_mono (segments (data items weights)) (segments_w_nonneg items weights)
    (Nat.le_add_left k (data items weights).length)
  rwa [cumW_segments_all _ _ (Nat.le_add_right _ _)] at h1

/-- The position picked for a draw lying strictly between two consecutive
cumulative weights. -/
theorem pick_of_between (items : List (Option Item)) (weights : Option (List JSValue))
    (h : items ≠ []) (r : ℚ) (k : Nat) (hk : k < (segments (data items weights)).length)
    (h1 : cumW (segments (data items weights)) k < r)
    (h2 : r ≤ cumW (segments (data items weights)) (k + 1)) :
    pickIndexWeighted (segments (data items weights)) (totalWeight (data items weights))
      (r / totalWeight (data items weights)) = some k := by
  obtain ⟨i, hp, hi, hall, hor⟩ := pick_segments items weights r h
  have hw := segments_w_nonneg items weights
  rw [hp]
  rcases Nat.lt_trichotomy i k with hlt | heq | hgt
  · exfalso
    rcases hor with hle | ⟨hlast, _⟩
    · have := cumW_mono (segments (data items weights)) hw (show i + 1 ≤ k by omega)
      linarith
    · omega
  · rw [heq]
  · exfalso
    have := hall k hgt
    linarith

/-- C3: over the segments of a non-empty normalized wheel, the draws in
`[0, totalWeight)` for which `pickIndexWeighted` returns position `i` lie between
the open and the closed interval from `w_0 + ... + w_(i-1)` to `w_0 + ... + w_i`,
an interval of length exactly `w_i` inside `[0, totalWeight]`; its share of the
draw range is `w_i / totalWeight`. -/
theorem pick_draws_form_interval (items : List (Option Item)) (weights : Option (List JSValue))
    (h : items ≠ []) (i : Nat) (s : Segment)
    (hs : (segments (data items weights))[i]? = some s) :
    cumW (segments (data items weights)) (i + 1) - cumW (segments (data items weights)) i = s.w ∧
    0 ≤ cumW (segments (data items weights)) i ∧
    cumW (segments (data items weights)) (i + 1) ≤ totalWeight (data items weights) ∧
    (∀ r : ℚ, cumW (segments (data items weights)) i < r →
      r < cumW (segments (data items weights)) (i + 1) →
      0 ≤ r ∧ r < totalWeight (data items weights) ∧
      pickIndexWeighted (segments (data items weights)) (totalWeight (data items weights))
        (r / totalWeight (data items weights)) = some i) ∧
    (∀ r : ℚ, 0 ≤ r → r < totalWeight (data items weights) →
      pickIndexWeighted (segments (data items weights)) (totalWeight (data items weights))
        (r / totalWeight (data items weights)) = some i →
      cumW (segments (data items weights)) i ≤ r ∧
        r ≤ cumW (segments (data items weights)) (i + 1)) ∧
    (cumW (segments (data items weights)) (i + 1) - cumW (segments (data items weights)) i) /
        (totalWeight (data items weights) - 0) = s.w / totalWeight (data items weights) := by
  have hw := segments_w_nonneg items weights
  have hsucc := cumW_succ _ _ _ hs
  have hnn := cumW_nonneg (segments (data items weights)) hw i
  have hle := cumW_segments_le_total items weights (i + 1)
  have hilt : i < (segments (data items weights)).length := by
    rcases Nat.lt_or_ge i (segments (data items weights)).length with hlt | hge
    · exact hlt
    · simp [List.getElem?_eq_none hge] at hs
  refine ⟨by rw [hsucc]; ring, hnn, hle, ?_, ?_, by rw [hsucc]; ring_nf⟩
  · intro r h1 h2
    exact ⟨by linarith, by linarith, pick_of_between items weights h r i hilt h1 (le_of_lt h2)⟩
  · intro r h0 hlt hp
    obtain ⟨i', hp', _, hall, hor⟩ := pick_segments items weights r h
    rw [hp] at hp'
    simp only [Option.some.injEq] at hp'
    subst hp'
    constructor
    · cases i with
      | zero => rw [cumW_zero]; exact h0
      | succ j => exact le_of_lt (hall j (by omega))
    · rcases hor with hle' | ⟨_, hnone⟩
      · exact hle'
      · exfalso
        have h3 := hnone ((segments (data items weights)).length - 1) (by omega)
        have h4 : (segments (data items weights)).length - 1 + 1 =
            (segments (data items weights)).length := by omega
        rw [h4, cumW_segments_all _ _ (by rw [segments_length])] at h3
        linarith

end Wheel

namespace Wheel

theorem data_cafe_park_one_three :
    data [cafe, park] (some [jsNum 1, jsNum 3]) =
      [{ name := "Cafe", item := cafe, w := 1 }, { name := "Park", item := park, w := 3 }] := by
  simp [data, clean, cleanFrom, sumW, resolveWeight, weightAt, toNumber, mathMax0, orZero, jsNum,
    entryName, itemName, cafe, park, trim, trimChars, jsIsWhiteSpace]
  norm_num

theorem segments_cafe_park_one_three :
    segments (data [cafe, park] (some [jsNum 1, jsNum 3])) =
      [{ index := 0, start := 0, end_ := 90, sweep := 90, mid := 45,
         name := "Cafe", item := cafe, w := 1 }, parkSeg3] := by
  rw [data_cafe_park_one_three]
  simp [segments, segsFrom, totalWeight, sumW, parkSeg3]
  norm_num

/-- Witness of C3 on Cafe and Park with weights 1 and 3: Park, of weight 3, is
picked on the draws between 1 and 4. -/
theorem pick_draws_form_interval_witness :
    (segments (data [cafe, park] (some [jsNum 1, jsNum 3])))[1]? = some parkSeg3 ∧
    parkSeg3.w = 3 ∧
    cumW (segments (data [cafe, park] (some [jsNum 1, jsNum 3]))) 1 = 1 ∧
    totalWeight (data [cafe, park] (some [jsNum 1, jsNum 3])) = 4 ∧
    (cumW (segments (data [cafe, park] (some [jsNum 1, jsNum 3]))) (1 + 1) -
        cumW (segments (data [cafe, park] (some [jsNum 1, jsNum 3]))) 1 = parkSeg3.w ∧
      0 ≤ cumW (segments (data [cafe, park] (some [jsNum 1, jsNum 3]))) 1 ∧
      cumW (segments (data [cafe, park] (some [jsNum 1, jsNum 3]))) (1 + 1) ≤
        totalWeight (data [cafe, park] (some [jsNum 1, jsNum 3])) ∧
      (∀ r : ℚ, cumW (segments (data [cafe, park] (some [jsNum 1, jsNum 3]))) 1 < r →
        r < cumW (segments (data [cafe, park] (some [jsNum 1, jsNum 3]))) (1 + 1) →
        0 ≤ r ∧ r < totalWeight (data [cafe, park] (some [jsNum 1, jsNum 3])) ∧
        pickIndexWeighted (segments (data [cafe, park] (some [jsNum 1, jsNum 3])))
          (totalWeight (data [cafe, park] (some [jsNum 1, jsNum 3])))
          (r / totalWeight (data [cafe, park] (some [jsNum 1, jsNum 3]))) = some 1) ∧
      (∀ r : ℚ, 0 ≤ r → r < totalWeight (data [cafe, park] (some [jsNum 1, jsNum 3])) →
        pickIndexWeighted (segments (data [cafe, park] (some [jsNum 1, jsNum 3])))
          (totalWeight (data [cafe, park] (some [jsNum 1, jsNum 3])))
          (r / totalWeight (data [cafe, park] (some [jsNum 1, jsNum 3]))) = some 1 →
        cumW (segments (data [cafe, park] (some [jsNum 1, jsNum 3]))) 1 ≤ r ∧
          r ≤ cumW (segments (data [cafe, park] (some [jsNum 1, jsNum 3]))) (1 + 1)) ∧
      (cumW (segments (data [cafe, park] (some [jsNum 1, jsNum 3]))) (1 + 1) -
          cumW (segments (data [cafe, park] (some [jsNum 1, jsNum 3]))) 1) /
          (totalWeight (data [cafe, park] (some [jsNum 1, jsNum 3])) - 0) =
        parkSeg3.w / totalWeight (data [cafe, park] (some [jsNum 1, jsNum 3]))) := by
  refine ⟨by rw [segments_cafe_park_one_three]; rfl, rfl, ?_, ?_,
    pick_draws_form_interval [cafe, park] (some [jsNum 1, jsNum 3]) (by simp) 1 parkSeg3
      (by rw [segments_cafe_park_one_three]; rfl)⟩
  · rw [segments_cafe_park_one_three]
    simp [cumW]
  · rw [data_cafe_park_one_three]
    simp [totalWeight, sumW]
    norm_num

/-- C4: for every draw value `r`, inside or outside `[0, totalWeight)`, the pick
over the segments of a non-empty wheel returns a valid position `i`: the least
one whose cumulative weight `w_0 + ... + w_i` is at least `r`, or the last
position when there is none; so a draw above the cumulative weight before
position `k` and at most the cumulative weight at `k` returns `k`. -/
theorem pick_least_cumulative (items : List (Option Item)) (weights : Option (List JSValue))
    (h : items ≠ []) (r : ℚ) :
    ∃ i, pickIndexWeighted (segments (data items weights)) (totalWeight (data items weights))
          (r / totalWeight (data items weights)) = some i ∧
      i < (segments (data items weights)).length ∧
      (∀ j, j < i → cumW (segments (data items weights)) (j + 1) < r) ∧
      (r ≤ cumW (segments (data items weights)) (i + 1) ∨
        (i = (segments (data items weights)).length - 1 ∧
          ∀ j, j < (segments (data items weights)).length →
            cumW (segments (data items weights)) (j + 1) < r)) ∧
      (∀ k, k < (segments (data items weights)).length →
        cumW (segments (data items weights)) k < r →
        r ≤ cumW (segments (data items weights)) (k + 1) → i = k) := by
  obtain ⟨i, hp, hi, hall, hor⟩ := pick_segments items weights r h
  refine ⟨i, hp, hi, hall, hor, ?_⟩
  intro k hk h1 h2
  have := pick_of_between items weights h r k hk h1 h2
  rw [hp] at this
  exact Option.some.inj this

/-- Witness of C4 on Cafe and Park with absent weights and the draw 5, which
lies outside the draw range. -/
theorem pick_least_cumulative_witness :
    ∃ i, pickIndexWeighted (segments (data [cafe, park] none)) (totalWeight (data [cafe, park] none))
          (5 / totalWeight (data [cafe, park] none)) = some i ∧
      i < (segments (data [cafe, park] none)).length ∧
      (∀ j, j < i → cumW (segments (data [cafe, park] none)) (j + 1) < 5) ∧
      (5 ≤ cumW (segments (data [cafe, park] none)) (i + 1) ∨
        (i = (segments (data [cafe, park] none)).length - 1 ∧
          ∀ j, j < (segments (data [cafe, park] none)).length →
            cumW (segments (data [cafe, park] none)) (j + 1) < 5)) ∧
      (∀ k, k < (segments (data [cafe, park] none)).length →
        cumW (segments (data [cafe, park] none)) k < 5 →
        5 ≤ cumW (segments (data [cafe, park] none)) (k + 1) → i = k) :=
  pick_least_cumulative [cafe, park] none (by simp) 5

/-- C5: selection agrees with the rendered geometry: for a draw `r` with
`0 < r < totalWeight`, the position returned by `pickIndexWeighted` is that of
the segment whose angular interval contains the angle of the draw,
`start < 360 * r / totalWeight <= end`, for the segment list and total weight
of the wedges. -/
theorem pick_agrees_with_geometry (items : List (Option Item))
    (weights : Option (List JSValue)) (h : items ≠ []) (r : ℚ) (h0 : 0 < r)
    (h1 : r < totalWeight (data items weights)) :
    ∃ i s, pickIndexWeighted (segments (data items weights)) (totalWeight (data items weights))
          (r / totalWeight (data items weights)) = some i ∧
      (segments (data items weights))[i]? = some s ∧
      s.start < 360 * r / totalWeight (data items weights) ∧
      360 * r / totalWeight (data items weights) ≤ s.end_ := by
  obtain ⟨i, hp, hi, hall, hor⟩ := pick_segments items weights r h
  have hpos := totalWeight_data_pos items weights h
  have hlow : cumW (segments (data items weights)) i < r := by
    cases i with
    | zero => rw [cumW_zero]; exact h0
    | succ j => exact hall j (by omega)
  have hup : r ≤ cumW (segments (data items weights)) (i + 1) := by
    rcases hor with hle | ⟨_, hnone⟩
    · exact hle
    · exfalso
      have h3 := hnone ((segments (data items weights)).length - 1) (by omega)
      have h4 : (segments (data items weights)).length - 1 + 1 =
          (segments (data items weights)).length := by omega
      rw [h4, cumW_segments_all _ _ (by rw [segments_length])] at h3
      linarith
  have hget := segments_getElem? (data items weights) i
  have hi2 : i < (data items weights).length := by rwa [segments_length] at hi
  rw [List.getElem?_eq_getElem hi2] at hget
  refine ⟨i, _, hp, hget, ?_, ?_⟩
  · simp only [Option.map_some']
    rw [sweepSum_eq, ← cumW_segments_eq]
    rw [div_mul_eq_mul_div, mul_comm 360 r]
    exact div_lt_div_of_pos_right (by linarith) hpos
  · simp only [Option.map_some']
    have hs := sweepSum_succ (totalWeight (data items weights)) (data items weights) i _
      (List.getElem?_eq_getElem hi2)
    rw [← hs, sweepSum_eq, ← cumW_segments_eq]
    rw [div_mul_eq_mul_div, mul_comm 360 r]
    exact div_le_div_of_nonneg_right (by linarith) (le_of_lt hpos)

/-- Witness of C5 on Cafe and Park with weights 1 and 3 and the draw 2. -/
theorem pick_agrees_with_geometry_witness :
    (0 : ℚ) < 2 ∧ (2 : ℚ) < totalWeight (data [cafe, park] (some [jsNum 1, jsNum 3])) ∧
    ∃ i s, pickIndexWeighted (segments (data [cafe, park] (some [jsNum 1, jsNum 3])))
          (totalWeight (data [cafe, park] (some [jsNum 1, jsNum 3])))
          (2 / totalWeight (data [cafe, park] (some [jsNum 1, jsNum 3]))) = some i ∧
      (segments (data [cafe, park] (some [jsNum 1, jsNum 3])))[i]? = some s ∧
      s.start < 360 * 2 / totalWeight (data [cafe, park] (some [jsNum 1, jsNum 3])) ∧
      360 * 2 / totalWeight (data [cafe, park] (some [jsNum 1, jsNum 3])) ≤ s.end_ := by
  have ht : totalWeight (data [cafe, park] (some [jsNum 1, jsNum 3])) = 4 := by
    rw [data_cafe_park_one_three]
    simp [totalWeight, sumW]
    norm_num
  exact ⟨by norm_num, by rw [ht]; norm_num,
    pick_agrees_with_geometry [cafe, park] (some [jsNum 1, jsNum 3]) (by simp) 2 (by norm_num)
      (by rw [ht]; norm_num)⟩

end Wheel

namespace Wheel

/-! ## Normalizer: resolved weights and the fallback -/

/-- C7: the weight that the normalizer resolves for position `i` is 1 when the
weight list has no value there (list absent, too short, or the value is
`undefined` or `null`), 0 when the value is negative or `NaN`, and the value
itself otherwise; so every resolved weight is non-negative. -/
theorem resolved_weight_cases (items : List (Option Item)) (weights : Option (List JSValue))
    (i : Nat) (d : Entry) (h : (clean items weights)[i]? = some d) :
    (weights = none → d.w = 1) ∧
    (∀ ws, weights = some ws → ws.length ≤ i → d.w = 1) ∧
    (∀ ws, weights = some ws →
      (ws[i]? = some JSValue.undefined ∨ ws[i]? = some JSValue.null) → d.w = 1) ∧
    (∀ ws q, weights = some ws → ws[i]? = some (JSValue.number (JSNumber.num q)) →
      q < 0 → d.w = 0) ∧
    (∀ ws, weights = some ws → ws[i]? = some (JSValue.number JSNumber.nan) → d.w = 0) ∧
    (∀ ws q, weights = some ws → ws[i]? = some (JSValue.number (JSNumber.num q)) →
      0 ≤ q → d.w = q) ∧
    0 ≤ d.w := by
  rw [clean_getElem?] at h
  cases hit : items[i]? with
  | none => simp [hit] at h
  | some it =>
    simp only [hit, Option.map_some', Option.some.injEq] at h
    have hw : d.w = resolveWeight (weightAt weights i) := by rw [← h]
    refine ⟨?_, ?_, ?_, ?_, ?_, ?_, ?_⟩
    · intro hn
      rw [hw, hn]
      simp [weightAt, resolveWeight, toNumber, mathMax0, orZero]
    · intro ws hs hlen
      rw [hw, hs]
      simp [weightAt, List.getElem?_eq_none hlen, resolveWeight, toNumber, mathMax0, orZero]
    · intro ws hs hv
      rw [hw, hs]
      rcases hv with hv | hv <;>
        simp [weightAt, hv, resolveWeight, toNumber, mathMax0, orZero]
    · intro ws q hs hv hq
      rw [hw, hs]
      simp [weightAt, hv, resolveWeight, toNumber, mathMax0, orZero, max_eq_left (le_of_lt hq)]
    · intro ws hs hv
      rw [hw, hs]
      simp [weightAt, hv, resolveWeight, toNumber, mathMax0, orZero]
    · intro ws q hs hv hq
      rw [hw, hs]
      simp only [weightAt, List.get?_eq_getElem?, hv, Option.getD_some, resolveWeight, toNumber,
        mathMax0, orZero, max_eq_right hq]
      split
      · next h0 => exact h0.symm
      · rfl
    · rw [hw]
      exact resolveWeight_nonneg _

/-- Witness of C7 on Cafe and Park with the weight list `[-2]`: Cafe resolves to
weight 0. -/
theorem resolved_weight_cases_witness :
    (clean [cafe, park] (some [jsNum (-2)]))[0]? =
      some { name := "Cafe", item := cafe, w := 0 } ∧
    ((some [jsNum (-2)] : Option (List JSValue)) = none → (0 : ℚ) = 1) ∧
    (∀ ws, some [jsNum (-2)] = some ws → ws.length ≤ 0 → (0 : ℚ) = 1) ∧
    (∀ ws, some [jsNum (-2)] = some ws →
      (ws[0]? = some JSValue.undefined ∨ ws[0]? = some JSValue.null) → (0 : ℚ) = 1) ∧
    (∀ ws q, some [jsNum (-2)] = some ws → ws[0]? = some (JSValue.number (JSNumber.num q)) →
      q < 0 → (0 : ℚ) = 0) ∧
    (∀ ws, some [jsNum (-2)] = some ws → ws[0]? = some (JSValue.number JSNumber.nan) →
      (0 : ℚ) = 0) ∧
    (∀ ws q, some [jsNum (-2)] = some ws → ws[0]? = some (JSValue.number (JSNumber.num q)) →
      0 ≤ q → (0 : ℚ) = q) ∧
    (0 : ℚ) ≤ 0 := by
  have hc : (clean [cafe, park] (some [jsNum (-2)]))[0]? =
      some { name := "Cafe", item := cafe, w := 0 } := by
    simp [clean, cleanFrom, resolveWeight, weightAt, toNumber, mathMax0, orZero, jsNum,
      entryName, itemName, cafe, trim, trimChars, jsIsWhiteSpace]
  exact ⟨hc, resolved_weight_cases [cafe, park] (some [jsNum (-2)]) 0 _ hc⟩

theorem sumW_of_forall_one (ds : List Entry) (h : ∀ d ∈ ds, d.w = 1) :
    sumW ds = (ds.length : ℚ) := by
  rw [sumW_eq_sum]
  induction ds with
  | nil => simp
  | cons x xs ih =>
    simp only [List.map_cons, List.sum_cons, List.length_cons]
    rw [h x (by simp), ih (fun d hd => h d (by simp [hd]))]
    push_cast
    ring

/-- C8: if the sum of the resolved weights is `<= 0`, the normalizer gives every
entry the weight 1 and leaves its name and item alone; otherwise the entries
keep their resolved weights.  The total weight of the normalized list of a
non-empty item list is strictly positive. -/
theorem normalizer_fallback (items : List (Option Item)) (weights : Option (List JSValue)) :
    (((clean items weights).map Entry.w).sum ≤ 0 →
      ∀ i : Nat, (data items weights)[i]? =
        ((clean items weights)[i]?).map
          (fun c => ({ name := c.name, item := c.item, w := 1 } : Entry))) ∧
    (0 < ((clean items weights).map Entry.w).sum → data items weights = clean items weights) ∧
    (items ≠ [] → 0 < totalWeight (data items weights) ∧
      totalWeight (data items weights) = ((data items weights).map Entry.w).sum) := by
  refine ⟨?_, ?_, ?_⟩
  · intro hs i
    unfold data
    simp only
    rw [if_pos (by rw [sumW_eq_sum]; exact hs), List.getElem?_map]
  · intro hs
    unfold data
    simp only
    rw [if_neg (by rw [sumW_eq_sum]; exact not_le.mpr hs)]
  · intro h
    exact ⟨totalWeight_data_pos items weights h, sumW_eq_sum _⟩

/-! ## Fallback uniformity -/

theorem data_w_one_of_zero (items : List (Option Item)) (weights : Option (List JSValue))
    (h : ∀ c ∈ clean items weights, c.w = 0) : ∀ d ∈ data items weights, d.w = 1 := by
  have hs : sumW (clean items weights) ≤ 0 := by
    rw [sumW_eq_sum]
    have : ∀ x ∈ (clean items weights).map Entry.w, x = 0 := by
      intro x hx
      obtain ⟨c, hc, hcx⟩ := List.mem_map.mp hx
      rw [← hcx]
      exact h c hc
    rw [List.sum_eq_zero this]
  intro d hd
  unfold data at hd
  simp only at hd
  rw [if_pos hs] at hd
  obtain ⟨c, _, hc⟩ := List.mem_map.mp hd
  rw [← hc]

theorem data_w_one_of_one (items : List (Option Item)) (weights : Option (List JSValue))
    (h : ∀ c ∈ clean items weights, c.w = 1) : ∀ d ∈ data items weights, d.w = 1 := by
  intro d hd
  unfold data at hd
  simp only at hd
  split at hd
  · obtain ⟨c, _, hc⟩ := List.mem_map.mp hd
    rw [← hc]
  · exact h d hd

theorem clean_mem_w (items : List (Option Item)) (weights : Option (List JSValue)) (c : Entry)
    (hc : c ∈ clean items weights) :
    ∃ i, i < items.length ∧ c.w = resolveWeight (weightAt weights i) := by
  obtain ⟨k, hk⟩ := List.getElem?_of_mem hc
  rw [clean_getElem?] at hk
  cases hit : items[k]? with
  | none => simp [hit] at hk
  | some it =>
    simp only [hit, Option.map_some', Option.some.injEq] at hk
    refine ⟨k, ?_, by rw [← hk]⟩
    rcases Nat.lt_or_ge k items.length with hlt | hge
    · exact hlt
    · simp [List.getElem?_eq_none hge] at hit

/-- C9: for an item list of length `N >= 1` whose weights are all zero, negative
or `NaN`, or whose weight list is absent, every segment has sweep `360 / N`; the
item X with weights `[0]` gives the single segment `[0, 360]`. -/
theorem fallback_uniform (items : List (Option Item)) (weights : Option (List JSValue))
    (h : items ≠ [])
    (hw : weights = none ∨ ∃ ws, weights = some ws ∧ ∀ i, i < items.length →
      (ws[i]? = some (JSValue.number JSNumber.nan) ∨
        ∃ q, ws[i]? = some (JSValue.number (JSNumber.num q)) ∧ q ≤ 0)) :
    (segments (data items weights)).length = items.length ∧
    0 < totalWeight (data items weights) ∧
    (∀ (i : Nat) (s : Segment), (segments (data items weights))[i]? = some s →
      s.sweep = 360 / (items.length : ℚ) ∧ s.end_ - s.start = 360 / (items.length : ℚ)) ∧
    (segments (data [itemX] (some [jsNum 0]))).map (fun s => (s.start, s.end_)) = [(0, 360)] := by
  have hone : ∀ d ∈ data items weights, d.w = 1 := by
    rcases hw with hn | ⟨ws, hs, hall⟩
    · apply data_w_one_of_one
      intro c hc
      obtain ⟨i, _, hci⟩ := clean_mem_w items weights c hc
      rw [hci, hn]
      simp [weightAt, resolveWeight, toNumber, mathMax0, orZero]
    · apply data_w_one_of_zero
      intro c hc
      obtain ⟨i, hi, hci⟩ := clean_mem_w items weights c hc
      rw [hci, hs]
      rcases hall i hi with hv | ⟨q, hv, hq⟩
      · simp [weightAt, hv, resolveWeight, toNumber, mathMax0, orZero]
      · simp [weightAt, hv, resolveWeight, toNumber, mathMax0, orZero, max_eq_left hq]
  have htot : totalWeight (data items weights) = (items.length : ℚ) := by
    rw [totalWeight, sumW_of_forall_one _ hone, data_length]
  refine ⟨by rw [segments_length, data_length], totalWeight_data_pos items weights h, ?_, ?_⟩
  · intro i s hs
    rw [segments_getElem?] at hs
    cases hd : (data items weights)[i]? with
    | none => simp [hd] at hs
    | some d =>
      simp only [hd, Option.map_some', Option.some.injEq] at hs
      have hd1 := hone d (List.getElem?_mem hd)
      rw [← hs]
      simp only [htot, hd1]
      constructor <;> ring
  · rw [segments_itemX_zero]
    rfl

/-- Witness of C9 on the item X with the weight list `[0]`. -/
theorem fallback_uniform_witness :
    (segments (data [itemX] (some [jsNum 0]))).length = [itemX].length ∧
    0 < totalWeight (data [itemX] (some [jsNum 0])) ∧
    (∀ (i : Nat) (s : Segment), (segments (data [itemX] (some [jsNum 0])))[i]? = some s →
      s.sweep = 360 / ([itemX].length : ℚ) ∧ s.end_ - s.start = 360 / ([itemX].length : ℚ)) ∧
    (segments (data [itemX] (some [jsNum 0]))).map (fun s => (s.start, s.end_)) = [(0, 360)] :=
  fallback_uniform [itemX] (some [jsNum 0]) (by simp)
    (Or.inr ⟨[jsNum 0], rfl, by
      intro i hi
      have h0 : i = 0 := by simpa using hi
      subst h0
      exact Or.inr ⟨0, rfl, le_refl _⟩⟩)

end Wheel

namespace Wheel

/-! ## Spin: where the wheel stops -/

theorem mathRound_close (x : ℚ) : |(mathRound x : ℚ) - x| ≤ 1 / 2 := by
  unfold mathRound
  have h1 := Int.floor_le (x + 1 / 2)
  have h2 := Int.lt_floor_add_one (x + 1 / 2)
  rw [abs_le]
  constructor <;> linarith

/-- What one effective spin does to the rotation: the new rotation plus the
winner's `mid` is the previous rotation plus full turns, up to the rounding. -/
theorem spin_rotation_offset (segs : List Segment) (total : ℚ) (st st' : WheelState)
    (rand1 rand2 : ℚ) (hne : segs.length ≠ 0) (hidle : st.spinning = false)
    (h : spin segs total st rand1 rand2 = some st') :
    ∃ idx seg, pickIndexWeighted segs total rand1 = some idx ∧ segs[idx]? = some seg ∧
      st'.timers = st.timers ++ [(seg.item, idx)] ∧
      |st'.rotation + seg.mid - (st.rotation + 360 * ((7 + mathFloor (rand2 * 3) : ℤ) : ℚ))| ≤
        1 / 20 := by
  unfold spin at h
  rw [if_neg (by simp [hne, hidle])] at h
  cases hp : pickIndexWeighted segs total rand1 with
  | none => simp [hp] at h
  | some idx =>
    simp only [hp] at h
    cases hg : segs[idx]? with
    | none => simp [hg] at h
    | some seg =>
      simp only [hg, Option.some.injEq] at h
      refine ⟨idx, seg, rfl, hg, by rw [← h], ?_⟩
      rw [← h]
      simp only
      have hr := mathRound_close (((((6 + mathFloor (rand2 * 3) : ℤ) : ℚ)) * 360 + (360 - seg.mid)) * 10)
      rw [abs_le] at hr ⊢
      push_cast at hr ⊢
      constructor <;> linarith [hr.1, hr.2]

theorem spin_cafe_park_first :
    spin (segments (data [cafe, park] (some [jsNum 1, jsNum 1])))
      (totalWeight (data [cafe, park] (some [jsNum 1, jsNum 1]))) WheelState.init 0 0 =
      some { spinning := true, rotation := 2430, timers := [(cafe, 0)], results := [] } := by
  rw [segments_cafe_park, data_cafe_park]
  simp [spin, WheelState.init, pickIndexWeighted, pickLoop, cafeSeg, parkSeg, mathFloor,
    mathRound, totalWeight, sumW]
  norm_num

theorem spin_cafe_park_second :
    spin (segments (data [cafe, park] (some [jsNum 1, jsNum 1])))
      (totalWeight (data [cafe, park] (some [jsNum 1, jsNum 1])))
      (complete { spinning := true, rotation := 2430, timers := [(cafe, 0)], results := [] })
      0 0 =
      some { spinning := true, rotation := 4860, timers := [(cafe, 0)],
             results := [(cafe, 0)] } := by
  rw [segments_cafe_park, data_cafe_park]
  simp [spin, complete, pickIndexWeighted, pickLoop, cafeSeg, parkSeg, mathFloor,
    mathRound, totalWeight, sumW]
  norm_num

/-- C6, evaluated on the wheel of Cafe and Park with equal weights and both
random values 0: the first spin picks Cafe and stops at rotation 2430, with
Cafe's centre (`mid` 90) under the pointer; after its completion the second
spin picks Cafe again and stops at rotation 4860, and 4860 + 90 is not within
0.05 of any multiple of 360. -/
theorem second_spin_misses_pointer :
    spin (segments (data [cafe, park] (some [jsNum 1, jsNum 1])))
      (totalWeight (data [cafe, park] (some [jsNum 1, jsNum 1]))) WheelState.init 0 0 =
      some { spinning := true, rotation := 2430, timers := [(cafe, 0)], results := [] } ∧
    spin (segments (data [cafe, park] (some [jsNum 1, jsNum 1])))
      (totalWeight (data [cafe, park] (some [jsNum 1, jsNum 1])))
      (complete { spinning := true, rotation := 2430, timers := [(cafe, 0)], results := [] })
      0 0 =
      some { spinning := true, rotation := 4860, timers := [(cafe, 0)],
             results := [(cafe, 0)] } ∧
    (segments (data [cafe, park] (some [jsNum 1, jsNum 1])))[0]? = some cafeSeg ∧
    (2430 : ℚ) + cafeSeg.mid = 360 * 7 ∧
    ¬ ∃ k : ℤ, |(4860 : ℚ) + cafeSeg.mid - 360 * (k : ℚ)| ≤ 1 / 20 := by
  refine ⟨spin_cafe_park_first, spin_cafe_park_second, by rw [segments_cafe_park]; rfl,
    by norm_num [cafeSeg], ?_⟩
  rintro ⟨k, hk⟩
  simp only [cafeSeg] at hk
  rw [abs_le] at hk
  obtain ⟨h1, h2⟩ := hk
  have h3 : (360 * (k : ℚ)) < 4951 := by linarith
  have h4 : (4949 : ℚ) < 360 * (k : ℚ) := by linarith
  have h5 : 360 * k < 4951 := by exact_mod_cast h3
  have h6 : 4949 < 360 * k := by exact_mod_cast h4
  omega

/-! ## Entry names -/

theorem trim_placeholder : trim placeholder = placeholder := by decide

/-- The name of an entry, by cases on the item's name. -/
theorem entryName_cases (it : Option Item) :
    (itemName it = none → entryName it = placeholder) ∧
    (itemName it = some "" → entryName it = placeholder) ∧
    (∀ s, itemName it = some s → s ≠ "" → entryName it = trim s) := by
  refine ⟨?_, ?_, ?_⟩
  · intro h
    simp [entryName, h, trim_placeholder]
  · intro h
    simp [entryName, h, trim_placeholder]
  · intro s h hs
    simp [entryName, h, hs]

/-- C10, evaluated on an item whose name is a single space: the trimmed name is
empty, and the normalized entry's name is the empty string, not the
placeholder. -/
theorem blank_name_not_placeholder :
    itemName blankItem = some " " ∧ trim " " = "" ∧
    (data [blankItem] none).map Entry.name = [""] ∧
    (data [blankItem] none).map Entry.name ≠ [placeholder] := by
  have h : (data [blankItem] none).map Entry.name = [""] := by
    simp [data, clean, cleanFrom, sumW, resolveWeight, weightAt, toNumber, mathMax0, orZero,
      entryName, itemName, blankItem, trim, trimChars, jsIsWhiteSpace]
  refine ⟨rfl, by decide, h, ?_⟩
  rw [h]
  decide

end Wheel

namespace Wheel

/-! ## Order preservation -/

/-- The normalized entry at position `k`. -/
theorem data_getElem? (items : List (Option Item)) (weights : Option (List JSValue)) (k : Nat) :
    (data items weights)[k]? =
      (items[k]?).map (fun it =>
        ({ name := entryName it, item := it,
           w := if sumW (clean items weights) ≤ 0 then 1
                else resolveWeight (weightAt weights k) } : Entry)) := by
  unfold data
  simp only
  split
  · next hs =>
    rw [List.getElem?_map, clean_getElem?]
    cases items[k]? <;> simp
  · next hs =>
    rw [clean_getElem?]

theorem sumW_clean_pairs (ps : List (Option Item × JSValue)) :
    sumW (clean (ps.map Prod.fst) (some (ps.map Prod.snd))) =
      (ps.map (fun p => resolveWeight p.2)).sum := by
  rw [sumW_eq_sum]
  congr 1
  apply List.ext_getElem?
  intro k
  rw [List.getElem?_map, clean_getElem?, List.getElem?_map, List.getElem?_map]
  cases hp : ps[k]? with
  | none => simp
  | some p => simp [weightAt, hp]

/-- The normalized entry at position `k` when items and weights come in pairs. -/
theorem data_pairs_getElem? (ps : List (Option Item × JSValue)) (k : Nat) :
    (data (ps.map Prod.fst) (some (ps.map Prod.snd)))[k]? =
      (ps[k]?).map (fun p =>
        ({ name := entryName p.1, item := p.1,
           w := if (ps.map (fun p => resolveWeight p.2)).sum ≤ 0 then 1
                else resolveWeight p.2 } : Entry)) := by
  rw [data_getElem?, sumW_clean_pairs, List.getElem?_map]
  cases hp : ps[k]? with
  | none => simp
  | some p => simp [weightAt, hp]

theorem totalWeight_data_pairs (ps : List (Option Item × JSValue)) :
    totalWeight (data (ps.map Prod.fst) (some (ps.map Prod.snd))) =
      (ps.map (fun p => if (ps.map (fun p => resolveWeight p.2)).sum ≤ 0 then (1 : ℚ)
        else resolveWeight p.2)).sum := by
  rw [totalWeight, sumW_eq_sum]
  congr 1
  apply List.ext_getElem?
  intro k
  rw [List.getElem?_map, data_pairs_getElem?, List.getElem?_map]
  cases hp : ps[k]? with
  | none => simp
  | some p => simp

theorem sum_resolve_perm {ps qs : List (Option Item × JSValue)} (h : ps.Perm qs) :
    (ps.map (fun p => resolveWeight p.2)).sum = (qs.map (fun p => resolveWeight p.2)).sum :=
  (h.map _).sum_eq

theorem totalWeight_data_perm {ps qs : List (Option Item × JSValue)} (h : ps.Perm qs) :
    totalWeight (data (ps.map Prod.fst) (some (ps.map Prod.snd))) =
      totalWeight (data (qs.map Prod.fst) (some (qs.map Prod.snd))) := by
  rw [totalWeight_data_pairs, totalWeight_data_pairs, sum_resolve_perm h]
  exact (h.map _).sum_eq

/-- C11: the segment list has the length of the item list; the segment at
position `i` has index `i`, carries `items[i]` itself and has the normalized
weight of position `i`.  Nothing is sorted: when the pairs of item and weight
are permuted, the segment of a pair moves with the pair, with the same item,
name, weight and sweep. -/
theorem segments_preserve_order (items : List (Option Item)) (weights : Option (List JSValue)) :
    (segments (data items weights)).length = items.length ∧
    (∀ (i : Nat) (it : Option Item), items[i]? = some it →
      ∃ s d, (segments (data items weights))[i]? = some s ∧
        (data items weights)[i]? = some d ∧
        s.index = i ∧ s.item = it ∧ d.item = it ∧ s.w = d.w ∧ s.name = d.name) ∧
    (∀ ps qs : List (Option Item × JSValue), ps.Perm qs →
      ∀ (i j : Nat) (p : Option Item × JSValue), ps[i]? = some p → qs[j]? = some p →
        ∃ s t, (segments (data (ps.map Prod.fst) (some (ps.map Prod.snd))))[i]? = some s ∧
          (segments (data (qs.map Prod.fst) (some (qs.map Prod.snd))))[j]? = some t ∧
          s.index = i ∧ t.index = j ∧ s.item = p.1 ∧ t.item = p.1 ∧
          t.name = s.name ∧ t.w = s.w ∧ t.sweep = s.sweep) := by
  refine ⟨by rw [segments_length, data_length], ?_, ?_⟩
  · intro i it hit
    have hd := data_getElem? items weights i
    rw [hit] at hd
    simp only [Option.map_some'] at hd
    have hs := segments_getElem? (data items weights) i
    rw [hd] at hs
    simp only [Option.map_some'] at hs
    exact ⟨_, _, hs, hd, rfl, rfl, rfl, rfl, rfl⟩
  · intro ps qs hperm i j p hi hj
    have hd := data_pairs_getElem? ps i
    rw [hi] at hd
    simp only [Option.map_some'] at hd
    have hs := segments_getElem? (data (ps.map Prod.fst) (some (ps.map Prod.snd))) i
    rw [hd] at hs
    simp only [Option.map_some'] at hs
    have he := data_pairs_getElem? qs j
    rw [hj] at he
    simp only [Option.map_some'] at he
    have ht := segments_getElem? (data (qs.map Prod.fst) (some (qs.map Prod.snd))) j
    rw [he] at ht
    simp only [Option.map_some'] at ht
    refine ⟨_, _, hs, ht, rfl, rfl, rfl, rfl, rfl, ?_, ?_⟩
    · simp only [sum_resolve_perm hperm]
    · simp only [sum_resolve_perm hperm, totalWeight_data_perm hperm]

end Wheel

namespace Wheel

/-! ## Auxiliary facts: spins and runs -/

theorem spin_noop (segs : List Segment) (total : ℚ) (st : WheelState) (rand1 rand2 : ℚ)
    (h : segs.length = 0 ∨ st.spinning = true) : spin segs total st rand1 rand2 = some st := by
  unfold spin
  rw [if_pos h]

/-- The two outcomes of `spin`: nothing, or the state of an effective spin. -/
theorem spin_eq_cases (segs : List Segment) (total : ℚ) (st st1 : WheelState) (rand1 rand2 : ℚ)
    (h : spin segs total st rand1 rand2 = some st1) :
    ((segs.length = 0 ∨ st.spinning = true) ∧ st1 = st) ∨
    (segs.length ≠ 0 ∧ st.spinning = false ∧
      ∃ idx seg, pickIndexWeighted segs total rand1 = some idx ∧ segs[idx]? = some seg ∧
        st1 = { spinning := true,
                rotation := st.rotation +
                  (mathRound ((((6 + mathFloor (rand2 * 3) : ℤ) : ℚ) * 360 + (360 - seg.mid)) * 10)
                    : ℚ) / 10,
                timers := st.timers ++ [(seg.item, idx)],
                results := st.results }) := by
  unfold spin at h
  by_cases hc : segs.length = 0 ∨ st.spinning = true
  · rw [if_pos hc] at h
    exact Or.inl ⟨hc, (Option.some.inj h).symm⟩
  · rw [if_neg hc] at h
    have hne : segs.length ≠ 0 := fun h0 => hc (Or.inl h0)
    have hidle : st.spinning = false := by
      cases hsp : st.spinning with
      | false => rfl
      | true => exact absurd (Or.inr hsp) hc
    refine Or.inr ⟨hne, hidle, ?_⟩
    cases hp : pickIndexWeighted segs total rand1 with
    | none => simp [hp] at h
    | some idx =>
      simp only [hp] at h
      cases hg : segs[idx]? with
      | none => simp [hg] at h
      | some seg =>
        simp only [hg, Option.some.injEq] at h
        exact ⟨idx, seg, rfl, hg, by rw [← h]⟩

/-- On a non-empty wheel the pick returns a valid position for every random
value. -/
theorem pick_valid (items : List (Option Item)) (weights : Option (List JSValue))
    (h : items ≠ []) (rand : ℚ) :
    ∃ i, pickIndexWeighted (segments (data items weights)) (totalWeight (data items weights))
        rand = some i ∧ i < items.length := by
  have hpos := totalWeight_data_pos items weights h
  obtain ⟨i, hp, hi, _, _⟩ :=
    pick_segments items weights (rand * totalWeight (data items weights)) h
  rw [mul_div_assoc, div_self (ne_of_gt hpos), mul_one] at hp
  rw [segments_length, data_length] at hi
  exact ⟨i, hp, hi⟩

/-- An idle non-empty wheel spins: the state after the click. -/
theorem spin_effective (items : List (Option Item)) (weights : Option (List JSValue))
    (h : items ≠ []) (st : WheelState) (hidle : st.spinning = false) (rand1 rand2 : ℚ) :
    ∃ idx seg it, pickIndexWeighted (segments (data items weights))
        (totalWeight (data items weights)) rand1 = some idx ∧
      (segments (data items weights))[idx]? = some seg ∧ items[idx]? = some it ∧
      seg.item = it ∧ seg.index = idx ∧
      spin (segments (data items weights)) (totalWeight (data items weights)) st rand1 rand2 =
        some { spinning := true,
               rotation := st.rotation +
                 (mathRound ((((6 + mathFloor (rand2 * 3) : ℤ) : ℚ) * 360 + (360 - seg.mid)) * 10)
                   : ℚ) / 10,
               timers := st.timers ++ [(seg.item, idx)],
               results := st.results } := by
  obtain ⟨idx, hp, hi⟩ := pick_valid items weights h rand1
  have hit : items[idx]? = some items[idx] := List.getElem?_eq_getElem hi
  have hd := data_getElem? items weights idx
  rw [hit] at hd
  simp only [Option.map_some'] at hd
  have hs := segments_getElem? (data items weights) idx
  rw [hd] at hs
  simp only [Option.map_some'] at hs
  refine ⟨idx, _, _, hp, hs, hit, rfl, rfl, ?_⟩
  have hne : ¬ ((segments (data items weights)).length = 0 ∨ st.spinning = true) := by
    rw [segments_length, data_length, hidle]
    have : items.length ≠ 0 := fun h0 => h (List.length_eq_zero.mp h0)
    simp [this]
  unfold spin
  rw [if_neg hne]
  simp only [hp, hs]

/-- Every segment of a normalized wheel has its centre between 0 and 360. -/
theorem segment_mid_bounds (items : List (Option Item)) (weights : Option (List JSValue))
    (i : Nat) (s : Segment) (hs : (segments (data items weights))[i]? = some s) :
    0 ≤ s.mid ∧ s.mid ≤ 360 := by
  have hi : i < items.length := by
    rcases Nat.lt_or_ge i (segments (data items weights)).length with hlt | hge
    · rwa [segments_length, data_length] at hlt
    · simp [List.getElem?_eq_none hge] at hs
  have hne : items ≠ [] := by
    intro h0
    rw [h0] at hi
    simp at hi
  have hpos := totalWeight_data_pos items weights hne
  have hget := segments_getElem? (data items weights) i
  rw [hs] at hget
  cases hd : (data items weights)[i]? with
  | none => simp [hd] at hget
  | some d =>
    rw [hd] at hget
    simp only [Option.map_some', Option.some.injEq] at hget
    have hsucc := sweepSum_succ (totalWeight (data items weights)) (data items weights) i d hd
    have h0 : 0 ≤ sweepSum (totalWeight (data items weights)) (data items weights) i := by
      rw [sweepSum_eq, ← cumW_segments_eq]
      have := cumW_nonneg (segments (data items weights)) (segments_w_nonneg items weights) i
      positivity
    have h1 : sweepSum (totalWeight (data items weights)) (data items weights) (i + 1) ≤ 360 := by
      rw [sweepSum_eq, ← cumW_segments_eq]
      have hle := cumW_segments_le_total items weights (i + 1)
      have : cumW (segments (data items weights)) (i + 1) / totalWeight (data items weights) ≤ 1 :=
        (div_le_one hpos).mpr hle
      linarith
    have hdw : 0 ≤ d.w := data_w_nonneg items weights d (List.getElem?_mem hd)
    have hsw : 0 ≤ d.w / totalWeight (data items weights) * 360 := by positivity
    rw [hget]
    simp only
    constructor <;> linarith

theorem mathRound_ge_of_int_le (z : ℤ) (x : ℚ) (h : (z : ℚ) ≤ x) : z ≤ mathRound x := by
  unfold mathRound
  exact Int.le_floor.mpr (by linarith)

theorem mathRound_int_add (z : ℤ) (x : ℚ) : mathRound ((z : ℚ) + x) = z + mathRound x := by
  unfold mathRound
  rw [add_assoc, Int.floor_int_add]

end Wheel

namespace Wheel

theorem consistent_init : WheelState.init.Consistent :=
  ⟨Or.inr ⟨rfl, rfl⟩, 0, by simp [WheelState.init]⟩

theorem consistent_complete (st : WheelState) (h : st.Consistent) : (complete st).Consistent := by
  obtain ⟨hor, k, hk⟩ := h
  unfold complete
  cases ht : st.timers with
  | nil =>
    simp only
    exact ⟨hor, k, hk⟩
  | cons t rest =>
    simp only
    rcases hor with ⟨_, hlen⟩ | ⟨_, hnil⟩
    · rw [ht] at hlen
      have hrest : rest = [] := by
        cases rest with
        | nil => rfl
        | cons a b => simp at hlen
      exact ⟨Or.inr ⟨rfl, hrest⟩, k, hk⟩
    · rw [ht] at hnil
      exact absurd hnil (by simp)

theorem consistent_step (segs : List Segment) (total : ℚ) (st st1 : WheelState) (e : Event)
    (h : st.Consistent) (hs : step segs total st e = some st1) : st1.Consistent := by
  cases e with
  | timeout =>
    simp only [step, Option.some.injEq] at hs
    rw [← hs]
    exact consistent_complete st h
  | click rand1 rand2 =>
    simp only [step] at hs
    rcases spin_eq_cases segs total st st1 rand1 rand2 hs with ⟨_, heq⟩ | ⟨_, hidle, idx, seg, _, _, heq⟩
    · rw [heq]
      exact h
    · obtain ⟨hor, k, hk⟩ := h
      have hnil : st.timers = [] := by
        rcases hor with ⟨hsp, _⟩ | ⟨_, hnil⟩
        · rw [hidle] at hsp
          exact absurd hsp (by simp)
        · exact hnil
      rw [heq]
      refine ⟨Or.inl ⟨rfl, by simp [hnil]⟩, k + mathRound
        ((((6 + mathFloor (rand2 * 3) : ℤ) : ℚ) * 360 + (360 - seg.mid)) * 10), ?_⟩
      simp only
      rw [hk]
      push_cast
      ring

/-- Every state of a run from a consistent state is consistent. -/
theorem consistent_run (segs : List Segment) (total : ℚ) (evs : List Event)
    (st st1 : WheelState) (h : st.Consistent) (hr : run segs total st evs = some st1) :
    st1.Consistent := by
  induction evs generalizing st with
  | nil =>
    simp only [run, Option.some.injEq] at hr
    rw [← hr]
    exact h
  | cons e es ih =>
    simp only [run] at hr
    cases hs : step segs total st e with
    | none => simp [hs] at hr
    | some st2 =>
      simp only [hs] at hr
      exact ih st2 (consistent_step segs total st st2 e h hs) hr

theorem spin_increment_ge (rand2 mid : ℚ) (h0 : 0 ≤ rand2) (hmid : mid ≤ 360) :
    (6 * 360 : ℚ) ≤
      (mathRound ((((6 + mathFloor (rand2 * 3) : ℤ) : ℚ) * 360 + (360 - mid)) * 10) : ℚ) / 10 := by
  have hf : (0 : ℤ) ≤ mathFloor (rand2 * 3) := Int.floor_nonneg.mpr (by positivity)
  have hfq : (0 : ℚ) ≤ (mathFloor (rand2 * 3) : ℚ) := by exact_mod_cast hf
  have hge : ((21600 : ℤ) : ℚ) ≤
      (((6 + mathFloor (rand2 * 3) : ℤ) : ℚ) * 360 + (360 - mid)) * 10 := by
    push_cast
    nlinarith
  have hz := mathRound_ge_of_int_le 21600 _ hge
  have hq : ((21600 : ℤ) : ℚ) ≤ (mathRound
      ((((6 + mathFloor (rand2 * 3) : ℤ) : ℚ) * 360 + (360 - mid)) * 10) : ℚ) := by
    exact_mod_cast hz
  push_cast at hq ⊢
  linarith

/-- No event on a normalized wheel turns the rotation back. -/
theorem step_rotation_mono (items : List (Option Item)) (weights : Option (List JSValue))
    (st st1 : WheelState) (e : Event) (he : e.randomsInRange)
    (hs : step (segments (data items weights)) (totalWeight (data items weights)) st e =
      some st1) : st.rotation ≤ st1.rotation := by
  cases e with
  | timeout =>
    simp only [step, Option.some.injEq] at hs
    rw [← hs]
    unfold complete
    cases st.timers <;> simp
  | click rand1 rand2 =>
    simp only [step] at hs
    rcases spin_eq_cases _ _ st st1 rand1 rand2 hs with ⟨_, heq⟩ | ⟨_, _, idx, seg, _, hseg, heq⟩
    · rw [heq]
    · have hmid := (segment_mid_bounds items weights idx seg hseg).2
      have hinc := spin_increment_ge rand2 seg.mid he.2.2.1 hmid
      rw [heq]
      simp only
      linarith

theorem run_rotation_mono (items : List (Option Item)) (weights : Option (List JSValue))
    (evs : List Event) (st st1 : WheelState) (he : ∀ e ∈ evs, e.randomsInRange)
    (hr : run (segments (data items weights)) (totalWeight (data items weights)) st evs =
      some st1) : st.rotation ≤ st1.rotation := by
  induction evs generalizing st with
  | nil =>
    simp only [run, Option.some.injEq] at hr
    rw [← hr]
  | cons e es ih =>
    simp only [run] at hr
    cases hs : step (segments (data items weights)) (totalWeight (data items weights)) st e with
    | none => simp [hs] at hr
    | some st2 =>
      simp only [hs] at hr
      have h1 := step_rotation_mono items weights st st2 e (he e (by simp)) hs
      have h2 := ih st2 (fun x hx => he x (by simp [hx])) hr
      linarith

theorem segments_data_nil (weights : Option (List JSValue)) : segments (data [] weights) = [] := by
  simp [segments, segsFrom, data, clean, cleanFrom]

theorem totalWeight_data_nil (weights : Option (List JSValue)) :
    totalWeight (data [] weights) = 0 := by
  simp [totalWeight, sumW, data, clean, cleanFrom]

theorem run_nil_segments (total : ℚ) (evs : List Event) (st : WheelState)
    (ht : st.timers = []) : run [] total st evs = some st := by
  induction evs with
  | nil => rfl
  | cons e es ih =>
    cases e with
    | timeout =>
      simp only [run, step, complete, ht]
      exact ih
    | click rand1 rand2 =>
      simp only [run, step, spin_noop [] total st rand1 rand2 (Or.inl rfl)]
      exact ih

end Wheel

namespace Wheel

/-! ## Spin: guard, completion, rotation -/

/-- C13: on a non-empty wheel, a click in an idle state reached from the mount
fixes the winner index at once; the completion step sets the wheel back to idle
and calls the result callback with `items[winnerIdx]` and `winnerIdx`. -/
theorem completion_reports_winner (items : List (Option Item))
    (weights : Option (List JSValue)) (h : items ≠ []) (evs : List Event) (st : WheelState)
    (hr : run (segments (data items weights)) (totalWeight (data items weights))
      WheelState.init evs = some st)
    (hidle : st.spinning = false) (rand1 rand2 : ℚ) :
    ∃ idx it st1,
      pickIndexWeighted (segments (data items weights)) (totalWeight (data items weights))
        rand1 = some idx ∧
      items[idx]? = some it ∧
      spin (segments (data items weights)) (totalWeight (data items weights)) st rand1 rand2 =
        some st1 ∧
      st1.spinning = true ∧ st1.timers = [(it, idx)] ∧ st1.results = st.results ∧
      (complete st1).spinning = false ∧ (complete st1).timers = [] ∧
      (complete st1).results = st.results ++ [(it, idx)] ∧
      (complete st1).rotation = st1.rotation := by
  obtain ⟨idx, seg, it, hp, _, hit, hseg, _, hspin⟩ :=
    spin_effective items weights h st hidle rand1 rand2
  have hcons := consistent_run _ _ evs _ st consistent_init hr
  have hnil : st.timers = [] := by
    rcases hcons.1 with ⟨hsp, _⟩ | ⟨_, hnil⟩
    · rw [hidle] at hsp
      exact absurd hsp (by simp)
    · exact hnil
  refine ⟨idx, it, _, hp, hit, hspin, rfl, by simp [hnil, hseg], rfl, ?_, ?_, ?_, ?_⟩ <;>
    simp [complete, hnil, hseg]

/-- Witness of C13 on the freshly mounted wheel of Cafe and Park. -/
theorem completion_reports_winner_witness :
    ∃ idx it st1,
      pickIndexWeighted (segments (data [cafe, park] none)) (totalWeight (data [cafe, park] none))
        0 = some idx ∧
      [cafe, park][idx]? = some it ∧
      spin (segments (data [cafe, park] none)) (totalWeight (data [cafe, park] none))
        WheelState.init 0 0 = some st1 ∧
      st1.spinning = true ∧ st1.timers = [(it, idx)] ∧ st1.results = WheelState.init.results ∧
      (complete st1).spinning = false ∧ (complete st1).timers = [] ∧
      (complete st1).results = WheelState.init.results ++ [(it, idx)] ∧
      (complete st1).rotation = st1.rotation :=
  completion_reports_winner [cafe, park] none (by simp) [] WheelState.init rfl rfl 0 0

/-- C14: on a non-empty wheel every effective spin adds at least `6 * 360`
degrees to the rotation, so the rotation grows strictly; no later event turns it
back, so the rotation is never reset. -/
theorem rotation_strictly_increasing (items : List (Option Item))
    (weights : Option (List JSValue)) (h : items ≠ []) (st : WheelState)
    (hidle : st.spinning = false) (rand1 rand2 : ℚ) (h0 : 0 ≤ rand2) (h1 : rand2 < 1) :
    ∃ st1,
      spin (segments (data items weights)) (totalWeight (data items weights)) st rand1 rand2 =
        some st1 ∧
      st.rotation + 6 * 360 ≤ st1.rotation ∧ st.rotation < st1.rotation ∧
      (6 + mathFloor (rand2 * 3)) ≤ 8 ∧
      ∀ (evs : List Event) (st2 : WheelState), (∀ e ∈ evs, e.randomsInRange) →
        run (segments (data items weights)) (totalWeight (data items weights)) st1 evs =
          some st2 →
        st1.rotation ≤ st2.rotation ∧ st.rotation < st2.rotation := by
  obtain ⟨idx, seg, it, _, hseg, _, _, _, hspin⟩ :=
    spin_effective items weights h st hidle rand1 rand2
  have hmid := (segment_mid_bounds items weights idx seg hseg).2
  have hinc := spin_increment_ge rand2 seg.mid h0 hmid
  have hfl : mathFloor (rand2 * 3) < 3 := Int.floor_lt.mpr (by push_cast; linarith)
  refine ⟨_, hspin, ?_, ?_, by omega, ?_⟩
  · simp only
    linarith
  · simp only
    linarith
  · intro evs st2 he hr
    have hm := run_rotation_mono items weights evs _ st2 he hr
    simp only at hm
    exact ⟨hm, by linarith⟩

/-- Witness of C14 on the freshly mounted wheel of Cafe and Park. -/
theorem rotation_strictly_increasing_witness :
    ∃ st1,
      spin (segments (data [cafe, park] none)) (totalWeight (data [cafe, park] none))
        WheelState.init 0 (1 / 2) = some st1 ∧
      WheelState.init.rotation + 6 * 360 ≤ st1.rotation ∧
      WheelState.init.rotation < st1.rotation ∧
      (6 + mathFloor ((1 / 2 : ℚ) * 3)) ≤ 8 ∧
      ∀ (evs : List Event) (st2 : WheelState), (∀ e ∈ evs, e.randomsInRange) →
        run (segments (data [cafe, park] none)) (totalWeight (data [cafe, park] none)) st1 evs =
          some st2 →
        st1.rotation ≤ st2.rotation ∧ WheelState.init.rotation < st2.rotation :=
  rotation_strictly_increasing [cafe, park] none (by simp) WheelState.init rfl 0 (1 / 2)
    (by norm_num) (by norm_num)

/-- C16: for a random value `u` in `[0, 1)` the number of extra full spins
`6 + floor(3u)` of `spin` is 6, 7 or 8, and each of the three is reached. -/
theorem extra_spins_range (u : ℚ) (h0 : 0 ≤ u) (h1 : u < 1) :
    (6 + mathFloor (u * 3) = 6 ∨ 6 + mathFloor (u * 3) = 7 ∨ 6 + mathFloor (u * 3) = 8) ∧
    (∃ v : ℚ, 0 ≤ v ∧ v < 1 ∧ 6 + mathFloor (v * 3) = 6) ∧
    (∃ v : ℚ, 0 ≤ v ∧ v < 1 ∧ 6 + mathFloor (v * 3) = 7) ∧
    (∃ v : ℚ, 0 ≤ v ∧ v < 1 ∧ 6 + mathFloor (v * 3) = 8) := by
  have hf0 : (0 : ℤ) ≤ mathFloor (u * 3) := Int.floor_nonneg.mpr (by positivity)
  have hf3 : mathFloor (u * 3) < 3 := Int.floor_lt.mpr (by push_cast; linarith)
  refine ⟨by omega, ⟨0, by norm_num, by norm_num, ?_⟩, ⟨1 / 2, by norm_num, by norm_num, ?_⟩,
    ⟨3 / 4, by norm_num, by norm_num, ?_⟩⟩
  · simp [mathFloor]
  · have : mathFloor ((1 / 2 : ℚ) * 3) = 1 := by
      unfold mathFloor
      rw [Int.floor_eq_iff]
      norm_num
    omega
  · have : mathFloor ((3 / 4 : ℚ) * 3) = 2 := by
      unfold mathFloor
      rw [Int.floor_eq_iff]
      norm_num
    omega

/-- Witness of C16 at the random value one half. -/
theorem extra_spins_range_witness :
    (6 + mathFloor ((1 / 2 : ℚ) * 3) = 6 ∨ 6 + mathFloor ((1 / 2 : ℚ) * 3) = 7 ∨
      6 + mathFloor ((1 / 2 : ℚ) * 3) = 8) ∧
    (∃ v : ℚ, 0 ≤ v ∧ v < 1 ∧ 6 + mathFloor (v * 3) = 6) ∧
    (∃ v : ℚ, 0 ≤ v ∧ v < 1 ∧ 6 + mathFloor (v * 3) = 7) ∧
    (∃ v : ℚ, 0 ≤ v ∧ v < 1 ∧ 6 + mathFloor (v * 3) = 8) :=
  extra_spins_range (1 / 2) (by norm_num) (by norm_num)

end Wheel

namespace Wheel

/-! ## Rounding of the rotation -/

theorem round1_tenths_add (k : ℤ) (y : ℚ) : (k : ℚ) / 10 + round1 y = round1 ((k : ℚ) / 10 + y) := by
  unfold round1
  have e : ((k : ℚ) / 10 + y) * 10 = (k : ℚ) + y * 10 := by ring
  rw [e, mathRound_int_add]
  push_cast
  ring

/-! ## The first spin -/

/-- C20: on a freshly mounted non-empty wheel, the first spin stops with the
centre of the winner under the pointer: the rotation plus the winner's `mid`
is within 0.05 degrees of a multiple of 360. -/
theorem first_spin_lands_on_winner (items : List (Option Item))
    (weights : Option (List JSValue)) (h : items ≠ []) (rand1 rand2 : ℚ) :
    ∃ idx seg st1,
      pickIndexWeighted (segments (data items weights)) (totalWeight (data items weights))
        rand1 = some idx ∧
      (segments (data items weights))[idx]? = some seg ∧
      spin (segments (data items weights)) (totalWeight (data items weights))
        WheelState.init rand1 rand2 = some st1 ∧
      st1.timers = [(seg.item, idx)] ∧
      ∃ k : ℤ, |st1.rotation + seg.mid - 360 * (k : ℚ)| ≤ 1 / 20 := by
  obtain ⟨idx, seg, it, hp, hseg, _, _, _, hspin⟩ :=
    spin_effective items weights h WheelState.init rfl rand1 rand2
  have hne : (segments (data items weights)).length ≠ 0 := by
    rw [segments_length, data_length]
    exact fun h0 => h (List.length_eq_zero.mp h0)
  obtain ⟨idx2, seg2, hp2, hseg2, htim, habs⟩ :=
    spin_rotation_offset _ _ WheelState.init _ rand1 rand2 hne rfl hspin
  rw [hp] at hp2
  have hidx : idx = idx2 := Option.some.inj hp2
  subst hidx
  rw [hseg] at hseg2
  have hsg : seg = seg2 := Option.some.inj hseg2
  subst hsg
  refine ⟨idx, seg, _, hp, hseg, hspin, by simp [WheelState.init], 7 + mathFloor (rand2 * 3), ?_⟩
  simpa [WheelState.init] using habs

/-- Witness of C20 on the wheel of Cafe and Park with weights 1 and 3. -/
theorem first_spin_lands_on_winner_witness :
    ∃ idx seg st1,
      pickIndexWeighted (segments (data [cafe, park] (some [jsNum 1, jsNum 3])))
        (totalWeight (data [cafe, park] (some [jsNum 1, jsNum 3]))) (1 / 2) = some idx ∧
      (segments (data [cafe, park] (some [jsNum 1, jsNum 3])))[idx]? = some seg ∧
      spin (segments (data [cafe, park] (some [jsNum 1, jsNum 3])))
        (totalWeight (data [cafe, park] (some [jsNum 1, jsNum 3])))
        WheelState.init (1 / 2) (1 / 3) = some st1 ∧
      st1.timers = [(seg.item, idx)] ∧
      ∃ k : ℤ, |st1.rotation + seg.mid - 360 * (k : ℚ)| ≤ 1 / 20 :=
  first_spin_lands_on_winner [cafe, park] (some [jsNum 1, jsNum 3]) (by simp) (1 / 2) (1 / 3)

/-! ## The empty wheel -/

/-- C18, the claim refuted: for an empty item list the geometry step does not
produce a single segment from 0 to 360. -/
theorem empty_items_no_placeholder :
    ¬ ∃ s : Segment, segments (data [] none) = [s] ∧ s.start = 0 ∧ s.end_ = 360 := by
  rintro ⟨s, hs, _⟩
  rw [segments_data_nil] at hs
  exact absurd hs (by simp)

/-- C18, amended: for an empty item list the geometry step produces no segment:
the segment list is empty and the total weight is 0, although the constant `N`
is 1; the spin is then a no-op. -/
theorem empty_items_no_segments (weights : Option (List JSValue)) :
    data [] weights = [] ∧ N (data [] weights) = 1 ∧
    segments (data [] weights) = [] ∧ totalWeight (data [] weights) = 0 ∧
    ∀ (st : WheelState) (rand1 rand2 : ℚ),
      spin (segments (data [] weights)) (totalWeight (data [] weights)) st rand1 rand2 =
        some st := by
  have hd : data [] weights = [] := by simp [data, clean, cleanFrom]
  refine ⟨hd, by simp [N, hd], segments_data_nil weights, totalWeight_data_nil weights, ?_⟩
  intro st rand1 rand2
  exact spin_noop _ _ _ _ _ (Or.inl (by rw [segments_data_nil]; rfl))

end Wheel

namespace Wheel

/-! ## Reroll without the last winner -/

theorem lastWinnerIdOf_ne_empty (item : Option Item) (id : String)
    (h : lastWinnerIdOf item = some id) : id ≠ "" := by
  unfold lastWinnerIdOf orNull at h
  cases item with
  | none => simp at h
  | some i =>
    simp only [Option.map_some'] at h
    split at h
    · exact absurd h (by simp)
    · next hs =>
      intro h0
      rw [← Option.some.inj h] at h0
      exact hs h0

/-- The item of every segment is one of the items given to the wheel. -/
theorem segment_item_mem (items : List (Option Item)) (weights : Option (List JSValue))
    (s : Segment) (hs : s ∈ segments (data items weights)) : s.item ∈ items := by
  obtain ⟨k, hk⟩ := List.getElem?_of_mem hs
  rw [segments_getElem?, data_getElem?] at hk
  cases hit : items[k]? with
  | none => simp [hit] at hk
  | some it =>
    simp only [hit, Option.map_some', Option.some.injEq] at hk
    rw [← hk]
    exact List.getElem?_mem hit

theorem reroll_example :
    rerollExcludeLast [placeA, placeB, placeC] ["a", "b", "c"] weightsABC
      (lastWinnerIdOf (some placeB)) 0 none =
      some { items := [placeA, placeC], w := [jsNum 1, jsNum 1], exclude := "b", ts := 0 } := by
  simp [rerollExcludeLast, lastWinnerIdOf, orNull, pickList, placeA, placeB, placeC, weightsABC,
    orOne, jsNum]

/-- C15: with a last winner id set by an earlier result, `rerollExcludeLast` hands
the wheel the pick list without the items whose `place_id` is the last winner id,
in the original order, and the parallel list of their weights (1 when the weight
map has none); the previous winner has no segment on that wheel and no spin of it
can select it.  The picks A (1), B (2), C (1) with winner B give the items A, C
and the weights 1, 1. -/
theorem reroll_excludes_last (places : List Item) (picks : List String)
    (weights : String → JSValue) (item : Option Item) (id : String) (now : Nat)
    (tempSpin : Option TempSpin) (h : lastWinnerIdOf item = some id) :
    ∃ t, rerollExcludeLast places picks weights (lastWinnerIdOf item) now tempSpin = some t ∧
      t.items = (pickList places picks).filter (fun p => decide (p.place_id ≠ id)) ∧
      t.items.Sublist (pickList places picks) ∧
      (∀ p ∈ t.items, p.place_id ≠ id) ∧
      (∀ p ∈ pickList places picks, p.place_id ≠ id → p ∈ t.items) ∧
      t.w.length = t.items.length ∧
      (∀ (i : Nat) (p : Item), t.items[i]? = some p →
        t.w[i]? = some (orOne (weights p.place_id)) ∧
        (weights p.place_id = JSValue.undefined → t.w[i]? = some (jsNum 1)) ∧
        (∀ q : ℚ, weights p.place_id = jsNum q → q ≠ 0 → t.w[i]? = some (jsNum q))) ∧
      (∀ s ∈ segments (data t.wheelItems (some t.w)), ∃ p, s.item = some p ∧ p.place_id ≠ id) ∧
      (∀ (st st1 : WheelState) (rand1 rand2 : ℚ),
        spin (segments (data t.wheelItems (some t.w))) (totalWeight (data t.wheelItems (some t.w)))
          st rand1 rand2 = some st1 →
        ∀ c ∈ st1.timers, c ∈ st.timers ∨ ∃ p, c.1 = some p ∧ p.place_id ≠ id) ∧
      rerollExcludeLast [placeA, placeB, placeC] ["a", "b", "c"] weightsABC
        (lastWinnerIdOf (some placeB)) 0 none =
        some { items := [placeA, placeC], w := [jsNum 1, jsNum 1], exclude := "b", ts := 0 } := by
  have hne := lastWinnerIdOf_ne_empty item id h
  have hfilter : ∀ l : List Item, l.filter (fun p => p.place_id != id) =
      l.filter (fun p => decide (p.place_id ≠ id)) := by
    intro l
    congr 1
    funext p
    by_cases hp : p.place_id = id <;> simp [hp]
  have hitem : ∀ p ∈ (pickList places picks).filter (fun p => decide (p.place_id ≠ id)),
      p.place_id ≠ id := by
    intro p hp
    simpa using (List.mem_filter.mp hp).2
  have hsegs : ∀ s ∈ segments (data
      (((pickList places picks).filter (fun p => decide (p.place_id ≠ id))).map some)
      (some (((pickList places picks).filter (fun p => decide (p.place_id ≠ id))).map
        (fun p => orOne (weights p.place_id))))),
      ∃ p, s.item = some p ∧ p.place_id ≠ id := by
    intro s hs
    have hmem := segment_item_mem _ _ s hs
    obtain ⟨p, hp, hps⟩ := List.mem_map.mp hmem
    exact ⟨p, hps.symm, hitem p hp⟩
  refine ⟨{ items := (pickList places picks).filter (fun p => decide (p.place_id ≠ id)),
            w := ((pickList places picks).filter (fun p => decide (p.place_id ≠ id))).map
              (fun p => orOne (weights p.place_id)),
            exclude := id, ts := now }, ?_, rfl, List.filter_sublist _, hitem, ?_, by simp, ?_,
          hsegs, ?_, reroll_example⟩
  · rw [h]
    simp only [rerollExcludeLast, if_neg hne, hfilter]
  · intro p hp hpid
    exact List.mem_filter.mpr ⟨hp, by simpa using hpid⟩
  · intro i p hp
    simp only at hp
    have hw : (((pickList places picks).filter (fun p => decide (p.place_id ≠ id))).map
        (fun p => orOne (weights p.place_id)))[i]? = some (orOne (weights p.place_id)) := by
      rw [List.getElem?_map, hp]
      rfl
    refine ⟨hw, ?_, ?_⟩
    · intro hu
      rw [hw, hu]
      rfl
    · intro q hq hq0
      rw [hw, hq]
      simp [orOne, jsNum, hq0]
  · intro st st1 rand1 rand2 hspin c hc
    rcases spin_eq_cases _ _ st st1 rand1 rand2 hspin with ⟨_, heq⟩ | ⟨_, _, idx, seg, _, hseg, heq⟩
    · rw [heq] at hc
      exact Or.inl hc
    · rw [heq] at hc
      simp only [List.mem_append, List.mem_singleton] at hc
      rcases hc with hc | hc
      · exact Or.inl hc
      · right
        rw [hc]
        exact hsegs seg (List.getElem?_mem hseg)

/-- Witness of C15 on the picks A, B, C with winner B. -/
theorem reroll_excludes_last_witness :
    ∃ t, rerollExcludeLast [placeA, placeB, placeC] ["a", "b", "c"] weightsABC
        (lastWinnerIdOf (some placeB)) 0 none = some t ∧
      t.items = (pickList [placeA, placeB, placeC] ["a", "b", "c"]).filter
        (fun p => decide (p.place_id ≠ "b")) ∧
      t.items.Sublist (pickList [placeA, placeB, placeC] ["a", "b", "c"]) ∧
      (∀ p ∈ t.items, p.place_id ≠ "b") ∧
      (∀ p ∈ pickList [placeA, placeB, placeC] ["a", "b", "c"], p.place_id ≠ "b" → p ∈ t.items) ∧
      t.w.length = t.items.length ∧
      (∀ (i : Nat) (p : Item), t.items[i]? = some p →
        t.w[i]? = some (orOne (weightsABC p.place_id)) ∧
        (weightsABC p.place_id = JSValue.undefined → t.w[i]? = some (jsNum 1)) ∧
        (∀ q : ℚ, weightsABC p.place_id = jsNum q → q ≠ 0 → t.w[i]? = some (jsNum q))) ∧
      (∀ s ∈ segments (data t.wheelItems (some t.w)), ∃ p, s.item = some p ∧ p.place_id ≠ "b") ∧
      (∀ (st st1 : WheelState) (rand1 rand2 : ℚ),
        spin (segments (data t.wheelItems (some t.w))) (totalWeight (data t.wheelItems (some t.w)))
          st rand1 rand2 = some st1 →
        ∀ c ∈ st1.timers, c ∈ st.timers ∨ ∃ p, c.1 = some p ∧ p.place_id ≠ "b") ∧
      rerollExcludeLast [placeA, placeB, placeC] ["a", "b", "c"] weightsABC
        (lastWinnerIdOf (some placeB)) 0 none =
        some { items := [placeA, placeC], w := [jsNum 1, jsNum 1], exclude := "b", ts := 0 } :=
  reroll_excludes_last [placeA, placeB, placeC] ["a", "b", "c"] weightsABC (some placeB) "b" 0
    none (by decide)

end Wheel

namespace Wheel

/-! ## The places handler: distinct, sorted, capped -/

theorem foldl_addResults (responses : List (Option (List RawPlace))) (u : List Place) :
    responses.foldl addResults u = (gathered responses).foldl addPlace u := by
  induction responses generalizing u with
  | nil => rfl
  | cons r rest ih =>
    cases r with
    | none => simp only [List.foldl_cons, addResults, gathered, ih]
    | some rs => simp only [List.foldl_cons, addResults, gathered, ih, List.foldl_append]

/-- The three outcomes of `addPlace`. -/
theorem addPlace_cases (u : List Place) (p : RawPlace) :
    addPlace u p = u ∨
      ∃ id, p.place_id = some id ∧ id ≠ "" ∧ (∀ x ∈ u, x.place_id ≠ id) ∧
        addPlace u p = u ++ [toPlace id p] := by
  unfold addPlace
  cases hid : p.place_id with
  | none => exact Or.inl rfl
  | some id =>
    simp only
    by_cases he : id = ""
    · rw [if_pos he]
      exact Or.inl rfl
    · rw [if_neg he]
      by_cases ha : u.any (fun x => x.place_id == id) = true
      · rw [if_pos ha]
        exact Or.inl rfl
      · rw [if_neg ha]
        refine Or.inr ⟨id, rfl, he, ?_, rfl⟩
        intro x hx hxid
        apply ha
        rw [List.any_eq_true]
        exact ⟨x, hx, by simp [hxid]⟩

theorem addPlace_subset (u : List Place) (p : RawPlace) (x : Place) (hx : x ∈ u) :
    x ∈ addPlace u p := by
  rcases addPlace_cases u p with h | ⟨id, _, _, _, h⟩
  · rw [h]; exact hx
  · rw [h]; exact List.mem_append_left _ hx

theorem addPlace_has_id (u : List Place) (p : RawPlace) (id : String)
    (hid : p.place_id = some id) (hne : id ≠ "") : ∃ x ∈ addPlace u p, x.place_id = id := by
  unfold addPlace
  simp only [hid, if_neg hne]
  by_cases ha : u.any (fun x => x.place_id == id) = true
  · rw [if_pos ha]
    rw [List.any_eq_true] at ha
    obtain ⟨x, hx, hxid⟩ := ha
    exact ⟨x, hx, by simpa using hxid⟩
  · rw [if_neg ha]
    exact ⟨toPlace id p, by simp, rfl⟩

theorem addPlace_nodup (u : List Place) (p : RawPlace) (h : (u.map Place.place_id).Nodup) :
    ((addPlace u p).map Place.place_id).Nodup := by
  rcases addPlace_cases u p with he | ⟨id, _, _, hfresh, he⟩
  · rw [he]; exact h
  · rw [he, List.map_append]
    apply List.Nodup.append h (by simp)
    intro a ha hb
    simp only [List.map_cons, List.map_nil, List.mem_singleton] at hb
    obtain ⟨x, hx, hxa⟩ := List.mem_map.mp ha
    exact hfresh x hx (by rw [hxa, hb]; rfl)

theorem foldl_addPlace_nodup (raws : List RawPlace) (u : List Place)
    (h : (u.map Place.place_id).Nodup) : ((raws.foldl addPlace u).map Place.place_id).Nodup := by
  induction raws generalizing u with
  | nil => exact h
  | cons p rest ih => exact ih (addPlace u p) (addPlace_nodup u p h)

/-- Every record of the map is there from the start, or comes from the first
upstream record with its identifier. -/
theorem foldl_addPlace_origin (raws : List RawPlace) (u : List Place) (r : Place)
    (hr : r ∈ raws.foldl addPlace u) :
    r ∈ u ∨ ((∀ x ∈ u, x.place_id ≠ r.place_id) ∧ r.place_id ≠ "" ∧
      ∃ raw, raws.find? (fun p => p.place_id == some r.place_id) = some raw ∧
        r = toPlace r.place_id raw) := by
  induction raws generalizing u with
  | nil => exact Or.inl hr
  | cons p rest ih =>
    simp only [List.foldl_cons] at hr
    rcases ih (addPlace u p) hr with hmem | ⟨hfresh, hne, raw, hfind, heq⟩
    · rcases addPlace_cases u p with he | ⟨id, hid, hidne, hnew, he⟩
      · rw [he] at hmem
        exact Or.inl hmem
      · rw [he] at hmem
        rcases List.mem_append.mp hmem with hu | hlast
        · exact Or.inl hu
        · simp only [List.mem_singleton] at hlast
          have hrid : r.place_id = id := by rw [hlast]; rfl
          refine Or.inr ⟨by rw [hrid]; exact hnew, by rw [hrid]; exact hidne, p, ?_, ?_⟩
          · rw [List.find?_cons]
            simp [hid, hrid]
          · rw [hrid]; exact hlast
    · have hp : p.place_id ≠ some r.place_id := by
        intro hpid
        obtain ⟨x, hx, hxid⟩ := addPlace_has_id u p r.place_id hpid hne
        exact hfresh x hx hxid
      refine Or.inr ⟨fun x hx => hfresh x (addPlace_subset u p x hx), hne, raw, ?_, heq⟩
      rw [List.find?_cons]
      have : (p.place_id == some r.place_id) = false := by simpa using hp
      rw [this]
      exact hfind

theorem ratingLe_iff (a b : Place) :
    ratingLe a b ↔ (b.rating.getD 0 < a.rating.getD 0 ∨
      (a.rating.getD 0 = b.rating.getD 0 ∧ b.user_ratings_total ≤ a.user_ratings_total)) := by
  unfold ratingLe compareRating
  simp only
  by_cases h : b.rating.getD 0 = a.rating.getD 0
  · simp only [h, ne_eq, not_true_eq_false, if_false, lt_irrefl, false_or, true_and]
    constructor <;> intro h1 <;> linarith
  · rw [if_pos h]
    constructor
    · intro h1
      left
      exact lt_of_le_of_ne (by linarith) h
    · rintro (h1 | ⟨h1, _⟩)
      · linarith
      · exact absurd h1.symm h

theorem ratingLe_total (a b : Place) : ratingLe a b ∨ ratingLe b a := by
  rw [ratingLe_iff, ratingLe_iff]
  rcases lt_trichotomy (a.rating.getD 0) (b.rating.getD 0) with h | h | h
  · exact Or.inr (Or.inl h)
  · rcases le_total a.user_ratings_total b.user_ratings_total with h1 | h1
    · exact Or.inr (Or.inr ⟨h.symm, h1⟩)
    · exact Or.inl (Or.inr ⟨h, h1⟩)
  · exact Or.inl (Or.inl h)

theorem ratingLe_trans (a b c : Place) (hab : ratingLe a b) (hbc : ratingLe b c) :
    ratingLe a c := by
  rw [ratingLe_iff] at hab hbc ⊢
  rcases hab with h1 | ⟨h1, h2⟩ <;> rcases hbc with h3 | ⟨h3, h4⟩
  · exact Or.inl (by linarith)
  · exact Or.inl (by linarith)
  · exact Or.inl (by linarith)
  · exact Or.inr ⟨by linarith, by linarith⟩

theorem sortByRating_sorted (ps : List Place) : (sortByRating ps).Pairwise ratingLe :=
  @List.sorted_insertionSort Place ratingLe _ ⟨ratingLe_total⟩ ⟨ratingLe_trans⟩ ps

theorem sortByRating_perm (ps : List Place) : (sortByRating ps).Perm ps :=
  List.perm_insertionSort ratingLe ps

end Wheel

namespace Wheel

/-! ## The winner's weight -/

/-- For a draw strictly inside the draw range the winner has a positive weight. -/
theorem pick_positive_weight (items : List (Option Item)) (weights : Option (List JSValue))
    (h : items ≠ []) (r : ℚ) (h0 : 0 < r) (h1 : r < totalWeight (data items weights)) :
    ∃ i s, pickIndexWeighted (segments (data items weights)) (totalWeight (data items weights))
          (r / totalWeight (data items weights)) = some i ∧
      (segments (data items weights))[i]? = some s ∧ 0 < s.w := by
  obtain ⟨i, hp, hi, hall, hor⟩ := pick_segments items weights r h
  have hlow : cumW (segments (data items weights)) i < r := by
    cases i with
    | zero => rw [cumW_zero]; exact h0
    | succ j => exact hall j (by omega)
  have hup : r ≤ cumW (segments (data items weights)) (i + 1) := by
    rcases hor with hle | ⟨_, hnone⟩
    · exact hle
    · exfalso
      have h3 := hnone ((segments (data items weights)).length - 1) (by omega)
      have h4 : (segments (data items weights)).length - 1 + 1 =
          (segments (data items weights)).length := by omega
      rw [h4, cumW_segments_all _ _ (by rw [segments_length])] at h3
      linarith
  have hget : (segments (data items weights))[i]? = some (segments (data items weights))[i] :=
    List.getElem?_eq_getElem hi
  have hsucc := cumW_succ _ _ _ hget
  exact ⟨i, _, hp, hget, by linarith⟩

theorem data_cafe_park_zero_one :
    data [cafe, park] (some [jsNum 0, jsNum 1]) =
      [{ name := "Cafe", item := cafe, w := 0 }, { name := "Park", item := park, w := 1 }] := by
  simp [data, clean, cleanFrom, sumW, resolveWeight, weightAt, toNumber, mathMax0, orZero, jsNum,
    entryName, itemName, cafe, park, trim, trimChars, jsIsWhiteSpace]

theorem segments_cafe_park_zero_one :
    segments (data [cafe, park] (some [jsNum 0, jsNum 1])) = [cafeSeg0, parkSeg1] := by
  rw [data_cafe_park_zero_one]
  simp [segments, segsFrom, totalWeight, sumW, cafeSeg0, parkSeg1]
  norm_num

/-- C21, evaluated on Cafe and Park with weights 0 and 1 and the random value 0:
the total weight is 1, the draw is 0, inside `[0, totalWeight)`, and the pick
returns position 0, the segment of Cafe, whose weight is 0. -/
theorem zero_weight_winner_at_zero_draw :
    totalWeight (data [cafe, park] (some [jsNum 0, jsNum 1])) = 1 ∧
    (0 : ℚ) ≤ 0 * totalWeight (data [cafe, park] (some [jsNum 0, jsNum 1])) ∧
    (0 : ℚ) * totalWeight (data [cafe, park] (some [jsNum 0, jsNum 1])) <
      totalWeight (data [cafe, park] (some [jsNum 0, jsNum 1])) ∧
    pickIndexWeighted (segments (data [cafe, park] (some [jsNum 0, jsNum 1])))
      (totalWeight (data [cafe, park] (some [jsNum 0, jsNum 1]))) 0 = some 0 ∧
    (segments (data [cafe, park] (some [jsNum 0, jsNum 1])))[0]? = some cafeSeg0 ∧
    cafeSeg0.w = 0 ∧ ¬ (0 < cafeSeg0.w) := by
  have ht : totalWeight (data [cafe, park] (some [jsNum 0, jsNum 1])) = 1 := by
    rw [data_cafe_park_zero_one]
    simp [totalWeight, sumW]
  refine ⟨ht, by rw [ht]; norm_num, by rw [ht]; norm_num, ?_, ?_, rfl, by simp [cafeSeg0]⟩
  · rw [segments_cafe_park_zero_one, ht]
    simp [pickIndexWeighted, pickLoop, cafeSeg0]
  · rw [segments_cafe_park_zero_one]
    rfl

/-! ## Label wrapping -/

theorem limitLines_length_le (n : Nat) (lines : List JSString) :
    (limitLines n lines).length ≤ 3 := by
  unfold limitLines
  by_cases h : lines.length > 3
  · rw [if_pos h]
    simp only
    cases (lines.take 3)[2]? with
    | none => simp only [List.length_take]; omega
    | some last => simp only [List.length_set, List.length_take]; omega
  · rw [if_neg h]
    omega

theorem limitLines_of_le (n : Nat) (lines : List JSString) (h : lines.length ≤ 3) :
    limitLines n lines = lines := by
  unfold limitLines
  rw [if_neg (by omega)]

/-- What the limit does to more than three lines. -/
theorem limitLines_of_gt (n : Nat) (lines : List JSString) (h : 3 < lines.length) :
    ∃ third, lines[2]? = some third ∧
      limitLines n lines = (lines.take 3).set 2
        (if third.length > n then third.take (n - 1) ++ [ellipsisUnit]
         else third ++ [ellipsisUnit]) := by
  have h2 : 2 < lines.length := by omega
  refine ⟨lines[2], List.getElem?_eq_getElem h2, ?_⟩
  unfold limitLines
  rw [if_pos h]
  simp only
  have ht : (lines.take 3)[2]? = some lines[2] := by
    rw [List.getElem?_take_of_lt (by omega), List.getElem?_eq_getElem h2]
  rw [ht]

theorem wrapLabel_fourWords :
    wrapLabel (some fourWords) 10 =
      [toUnits "aaaaaaa", toUnits "bbbbbbb", toUnits "ccccccc" ++ [ellipsisUnit]] := by
  decide

/-- C22: for every label and every sweep, `wrapLabel` returns at most 3 lines.
When the greedy word wrap gives more than 3 lines, it returns exactly 3: the
first two lines of the wrap, and a third line that ends with the ellipsis, made of
the third line of the wrap or of its first `perLine - 1` units.  When the wrap
gives at most 3 lines, they are returned as they are. -/
theorem wrapLabel_at_most_three_lines (str : Option JSString) (sweepDeg : ℚ) :
    (wrapLabel str sweepDeg).length ≤ 3 ∧
    (3 < (greedyLines (perLine sweepDeg) (splitSpaces (str.getD []))).length →
      (wrapLabel str sweepDeg).length = 3 ∧
      (wrapLabel str sweepDeg)[0]? =
        (greedyLines (perLine sweepDeg) (splitSpaces (str.getD [])))[0]? ∧
      (wrapLabel str sweepDeg)[1]? =
        (greedyLines (perLine sweepDeg) (splitSpaces (str.getD [])))[1]? ∧
      ∃ third last,
        (greedyLines (perLine sweepDeg) (splitSpaces (str.getD [])))[2]? = some third ∧
        (wrapLabel str sweepDeg)[2]? = some last ∧
        last.getLast? = some ellipsisUnit ∧
        (last = third ++ [ellipsisUnit] ∨
          last = third.take (perLine sweepDeg - 1) ++ [ellipsisUnit])) ∧
    ((greedyLines (perLine sweepDeg) (splitSpaces (str.getD []))).length ≤ 3 →
      wrapLabel str sweepDeg = greedyLines (perLine sweepDeg) (splitSpaces (str.getD []))) ∧
    wrapLabel (some fourWords) 10 =
      [toUnits "aaaaaaa", toUnits "bbbbbbb", toUnits "ccccccc" ++ [ellipsisUnit]] := by
  refine ⟨limitLines_length_le _ _, ?_, limitLines_of_le _ _, wrapLabel_fourWords⟩
  intro hgt
  obtain ⟨third, hthird, hlim⟩ := limitLines_of_gt (perLine sweepDeg) _ hgt
  have hw : wrapLabel str sweepDeg =
      limitLines (perLine sweepDeg) (greedyLines (perLine sweepDeg) (splitSpaces (str.getD []))) :=
    rfl
  have hlen3 : ((greedyLines (perLine sweepDeg) (splitSpaces (str.getD []))).take 3).length = 3 := by
    rw [List.length_take]
    omega
  rw [hw, hlim]
  have hset : ∀ x : JSString,
      (((greedyLines (perLine sweepDeg) (splitSpaces (str.getD []))).take 3).set 2 x)[2]? =
        some x := by
    intro x
    exact List.getElem?_set_self (by rw [hlen3]; omega)
  refine ⟨by rw [List.length_set, hlen3], ?_, ?_, ?_⟩
  · rw [List.getElem?_set_ne (by omega), List.getElem?_take_of_lt (by omega)]
  · rw [List.getElem?_set_ne (by omega), List.getElem?_take_of_lt (by omega)]
  · by_cases hlong : third.length > perLine sweepDeg
    · rw [if_pos hlong]
      exact ⟨third, _, hthird, hset _, List.getLast?_concat _, Or.inr rfl⟩
    · rw [if_neg hlong]
      exact ⟨third, _, hthird, hset _, List.getLast?_concat _, Or.inl rfl⟩

end Wheel

namespace Wheel

theorem foldl_addPlace_subset (raws : List RawPlace) (u : List Place) (x : Place) (hx : x ∈ u) :
    x ∈ raws.foldl addPlace u := by
  induction raws generalizing u with
  | nil => exact hx
  | cons p rest ih => exact ih (addPlace u p) (addPlace_subset u p x hx)

/-- Every identifier seen has a record in the map. -/
theorem foldl_addPlace_complete (raws : List RawPlace) (u : List Place) (raw : RawPlace)
    (id : String) (hraw : raw ∈ raws) (hid : raw.place_id = some id) (hne : id ≠ "") :
    ∃ x ∈ raws.foldl addPlace u, x.place_id = id := by
  induction raws generalizing u with
  | nil => simp at hraw
  | cons p rest ih =>
    simp only [List.foldl_cons]
    rcases List.mem_cons.mp hraw with heq | hmem
    · obtain ⟨x, hx, hxid⟩ := addPlace_has_id u p id (by rw [← heq]; exact hid) hne
      exact ⟨x, foldl_addPlace_subset rest _ x hx, hxid⟩
    · exact ih (addPlace u p) hmem

theorem orNull_eq_some (x : Option String) (id : String) :
    orNull x = some id ↔ x = some id ∧ id ≠ "" := by
  unfold orNull
  cases x with
  | none => simp
  | some s =>
    by_cases hs : s = ""
    · simp only [hs, if_true, Option.some.injEq]
      constructor
      · intro h; exact absurd h (by simp)
      · rintro ⟨h1, h2⟩; exact absurd h1.symm h2
    · simp only [hs, if_false, Option.some.injEq]
      constructor
      · intro h; exact ⟨h, by rw [← h]; exact hs⟩
      · rintro ⟨h1, _⟩; exact h1

/-- The keys of the map are the identifiers seen. -/
theorem unique_ids_perm (responses : List (Option (List RawPlace))) :
    (((gathered responses).foldl addPlace []).map Place.place_id).Perm (seenIds responses) := by
  unfold seenIds
  refine (List.perm_ext_iff_of_nodup (foldl_addPlace_nodup _ [] (by simp))
    (List.nodup_dedup _)).mpr ?_
  intro a
  rw [List.mem_dedup, List.mem_filterMap]
  constructor
  · intro ha
    obtain ⟨x, hx, hxa⟩ := List.mem_map.mp ha
    rcases foldl_addPlace_origin _ [] x hx with h | ⟨_, hne, raw, hfind, _⟩
    · simp at h
    · refine ⟨raw, List.mem_of_find?_eq_some hfind, ?_⟩
      have hp := List.find?_some hfind
      rw [orNull_eq_some]
      rw [← hxa]
      exact ⟨by simpa using hp, hne⟩
  · rintro ⟨raw, hraw, hor⟩
    rw [orNull_eq_some] at hor
    obtain ⟨x, hx, hxid⟩ := foldl_addPlace_complete _ [] raw a hraw hor.1 hor.2
    exact List.mem_map.mpr ⟨x, hx, hxid⟩

/-- C19: the results of the places handler have pairwise distinct `place_id`s;
each of them has an identifier and is the record of the first upstream place seen
with that identifier; they are ordered by rating, descending, then by review
count, descending, a missing rating counting as 0; they are at most 60, and
`count` is their number.  Nothing else is dropped: the results number 60 or as
many as there are identifiers seen, whichever is less, and the record of the
first place seen with an identifier is among the results unless the results are
60 that all rank at least as high. -/
theorem handler_results_distinct_sorted_capped (responses : List (Option (List RawPlace))) :
    ((handler responses).results.map Place.place_id).Nodup ∧
    (∀ r ∈ (handler responses).results, r.place_id ≠ "" ∧
      ∃ raw, (gathered responses).find? (fun p => p.place_id == some r.place_id) = some raw ∧
        r = toPlace r.place_id raw ∧ raw.place_id = some r.place_id ∧ r.name = raw.name ∧
        r.rating = raw.rating ∧ r.user_ratings_total = raw.user_ratings_total.getD 0) ∧
    (handler responses).results.Pairwise (fun a b =>
      b.rating.getD 0 < a.rating.getD 0 ∨
        (a.rating.getD 0 = b.rating.getD 0 ∧ b.user_ratings_total ≤ a.user_ratings_total)) ∧
    (handler responses).results.length ≤ 60 ∧
    (handler responses).count = (handler responses).results.length ∧
    (handler responses).results.length = min 60 (seenIds responses).length ∧
    (∀ raw ∈ gathered responses, ∀ id : String, raw.place_id = some id → id ≠ "" →
      ∃ first, (gathered responses).find? (fun p => p.place_id == some id) = some first ∧
        (toPlace id first ∈ (handler responses).results ∨
          ((handler responses).results.length = 60 ∧
            ∀ r ∈ (handler responses).results,
              (toPlace id first).rating.getD 0 < r.rating.getD 0 ∨
                (r.rating.getD 0 = (toPlace id first).rating.getD 0 ∧
                  (toPlace id first).user_ratings_total ≤ r.user_ratings_total)))) := by
  have hres : (handler responses).results =
      (sortByRating ((gathered responses).foldl addPlace [])).take 60 := by
    simp only [handler, foldl_addResults]
  have hlen : (sortByRating ((gathered responses).foldl addPlace [])).length =
      (seenIds responses).length := by
    rw [(sortByRating_perm _).length_eq, ← (unique_ids_perm responses).length_eq,
      List.length_map]
  refine ⟨?_, ?_, ?_, ?_, rfl, ?_, ?_⟩
  · rw [hres, List.map_take]
    apply List.Nodup.sublist (List.take_sublist _ _)
    have hperm := (sortByRating_perm ((gathered responses).foldl addPlace [])).map Place.place_id
    exact hperm.symm.nodup (foldl_addPlace_nodup _ [] (by simp))
  · intro r hr
    rw [hres] at hr
    have h1 := List.mem_of_mem_take hr
    have h2 := (sortByRating_perm ((gathered responses).foldl addPlace [])).mem_iff.mp h1
    rcases foldl_addPlace_origin _ [] r h2 with h3 | ⟨_, hne, raw, hfind, heq⟩
    · simp at h3
    · have hp : raw.place_id = some r.place_id := by simpa using List.find?_some hfind
      refine ⟨hne, raw, hfind, heq, hp, ?_, ?_, ?_⟩
      · rw [heq]; rfl
      · rw [heq]; rfl
      · rw [heq]; rfl
  · rw [hres]
    apply List.Pairwise.take
    exact (sortByRating_sorted _).imp (fun h => (ratingLe_iff _ _).mp h)
  · rw [hres, List.length_take]
    exact Nat.min_le_left _ _
  · rw [hres, List.length_take, hlen]
  · intro raw hraw id hid hne
    obtain ⟨x, hx, hxid⟩ := foldl_addPlace_complete _ [] raw id hraw hid hne
    rcases foldl_addPlace_origin _ [] x hx with h | ⟨_, _, first, hfind, heq⟩
    · simp at h
    · rw [hxid] at hfind heq
      refine ⟨first, hfind, ?_⟩
      rw [← heq, hres]
      have hxs : x ∈ sortByRating ((gathered responses).foldl addPlace []) :=
        (sortByRating_perm _).mem_iff.mpr hx
      rw [← List.take_append_drop 60 (sortByRating ((gathered responses).foldl addPlace []))]
        at hxs
      rcases List.mem_append.mp hxs with ht | hd
      · exact Or.inl ht
      · right
        have hsorted := sortByRating_sorted ((gathered responses).foldl addPlace [])
        rw [← List.take_append_drop 60 (sortByRating ((gathered responses).foldl addPlace []))]
          at hsorted
        have hcross := (List.pairwise_append.mp hsorted).2.2
        constructor
        · rw [List.length_take]
          have hdl : 0 < ((sortByRating ((gathered responses).foldl addPlace [])).drop 60).length :=
            List.length_pos_of_mem hd
          rw [List.length_drop] at hdl
          omega
        · intro r hr
          exact (ratingLe_iff _ _).mp (hcross r hr x hd)

theorem handler_example :
    ((handler [some [rawPlaceOf "a" 4 10, rawPlaceOf "b" 5 3, rawPlaceOf "a" 5 99], none,
        some [rawPlaceOf "" 5 1, rawPlaceOf "c" 4 20]]).results.map
      (fun p => (p.place_id, p.rating, p.user_ratings_total))) =
      [("b", some 5, 3), ("c", some 4, 20), ("a", some 4, 10)] := by
  simp [handler, addResults, addPlace, toPlace, rawPlaceOf, sortByRating, List.insertionSort,
    List.orderedInsert, ratingLe, compareRating]
  norm_num

end Wheel

namespace Wheel

/-! ## Triggers between renders -/

/-- After a render the closure's constant is the state, and `spinClosure` is
`spin`. -/
theorem spinClosure_eq_spin (segs : List Segment) (total : ℚ) (st : WheelState)
    (rand1 rand2 : ℚ) : spinClosure segs total st.spinning st rand1 rand2 =
      spin segs total st rand1 rand2 := rfl

/-- The guard: no segment, or a render in which the wheel was spinning. -/
theorem spinClosure_noop (segs : List Segment) (total : ℚ) (rendered : Bool) (st : WheelState)
    (rand1 rand2 : ℚ) (h : segs.length = 0 ∨ rendered = true) :
    spinClosure segs total rendered st rand1 rand2 = some st := by
  unfold spinClosure
  rw [if_pos h]

/-- A wheel without segments never schedules or fires a callback. -/
theorem runMounted_nil_segments (total : ℚ) (evs : List DomEvent) (m : Mounted)
    (ht : m.state.timers = []) (hr : m.state.results = []) :
    ∃ m1, runMounted [] total m evs = some m1 ∧ m1.state.timers = [] ∧
      m1.state.results = [] := by
  induction evs generalizing m with
  | nil => exact ⟨m, rfl, ht, hr⟩
  | cons e es ih =>
    cases e with
    | click rand1 rand2 =>
      simp only [runMounted, stepMounted,
        spinClosure_noop [] total m.rendered m.state rand1 rand2 (Or.inl rfl)]
      exact ih _ ht hr
    | timeout =>
      simp only [runMounted, stepMounted]
      exact ih _ (by simp [complete, ht]) (by simp [complete, ht, hr])
    | render =>
      simp only [runMounted, stepMounted]
      exact ih _ ht hr

/-- Two triggers with a render between them: the second does nothing, and one
callback fires. -/
theorem separated_triggers_one_callback (items : List (Option Item))
    (weights : Option (List JSValue)) (h : items ≠ []) (rand1 rand2 rand3 rand4 : ℚ) :
    ∃ m, runMounted (segments (data items weights)) (totalWeight (data items weights))
        Mounted.init
        [DomEvent.click rand1 rand2, DomEvent.render, DomEvent.click rand3 rand4,
          DomEvent.timeout, DomEvent.timeout] = some m ∧
      m.state.results.length = 1 ∧ m.state.timers = [] := by
  obtain ⟨idx, seg, it, _, _, _, _, _, hspin⟩ :=
    spin_effective items weights h WheelState.init rfl rand1 rand2
  rw [← spinClosure_eq_spin] at hspin
  have hinit : WheelState.init.spinning = false := rfl
  rw [hinit] at hspin
  have hrun : runMounted (segments (data items weights)) (totalWeight (data items weights))
      Mounted.init
      [DomEvent.click rand1 rand2, DomEvent.render, DomEvent.click rand3 rand4,
        DomEvent.timeout, DomEvent.timeout] =
      some { state := complete (complete
              { spinning := true,
                rotation := WheelState.init.rotation +
                  (mathRound ((((6 + mathFloor (rand2 * 3) : ℤ) : ℚ) * 360 + (360 - seg.mid)) * 10)
                    : ℚ) / 10,
                timers := WheelState.init.timers ++ [(seg.item, idx)],
                results := WheelState.init.results }),
             rendered := true } := by
    simp only [runMounted, stepMounted, Mounted.init, hspin]
    rw [spinClosure_noop _ _ true _ rand3 rand4 (Or.inr rfl)]
  exact ⟨_, hrun, by simp [complete, WheelState.init], by simp [complete, WheelState.init]⟩

theorem spinClosure_cafe_park_second :
    spinClosure (segments (data [cafe, park] (some [jsNum 1, jsNum 1])))
      (totalWeight (data [cafe, park] (some [jsNum 1, jsNum 1]))) false
      { spinning := true, rotation := 2430, timers := [(cafe, 0)], results := [] } 0 0 =
      some { spinning := true, rotation := 4860, timers := [(cafe, 0), (cafe, 0)],
             results := [] } := by
  rw [segments_cafe_park, data_cafe_park]
  simp [spinClosure, pickIndexWeighted, pickLoop, cafeSeg, parkSeg, mathFloor,
    mathRound, totalWeight, sumW]
  norm_num

/-- C12, evaluated on the wheel of Cafe and Park with equal weights, both random
values 0, and two triggers of `spin` in the same render: the guard of the second
trigger reads the constant `spinning` of that render, which is still `false`, so
the second trigger spins again, two timers are pending and two result callbacks
fire; with a render between the two triggers one callback fires. -/
theorem double_trigger_spins_twice :
    runMounted (segments (data [cafe, park] (some [jsNum 1, jsNum 1])))
      (totalWeight (data [cafe, park] (some [jsNum 1, jsNum 1]))) Mounted.init
      [DomEvent.click 0 0, DomEvent.click 0 0] =
      some { state := { spinning := true, rotation := 4860,
                        timers := [(cafe, 0), (cafe, 0)], results := [] },
             rendered := false } ∧
    runMounted (segments (data [cafe, park] (some [jsNum 1, jsNum 1])))
      (totalWeight (data [cafe, park] (some [jsNum 1, jsNum 1]))) Mounted.init
      [DomEvent.click 0 0, DomEvent.click 0 0, DomEvent.timeout, DomEvent.timeout] =
      some { state := { spinning := false, rotation := 4860, timers := [],
                        results := [(cafe, 0), (cafe, 0)] },
             rendered := false } ∧
    runMounted (segments (data [cafe, park] (some [jsNum 1, jsNum 1])))
      (totalWeight (data [cafe, park] (some [jsNum 1, jsNum 1]))) Mounted.init
      [DomEvent.click 0 0, DomEvent.render, DomEvent.click 0 0, DomEvent.timeout,
        DomEvent.timeout] =
      some { state := { spinning := false, rotation := 2430, timers := [],
                        results := [(cafe, 0)] },
             rendered := true } := by
  have h1 : spinClosure (segments (data [cafe, park] (some [jsNum 1, jsNum 1])))
      (totalWeight (data [cafe, park] (some [jsNum 1, jsNum 1]))) false WheelState.init 0 0 =
      some { spinning := true, rotation := 2430, timers := [(cafe, 0)], results := [] } :=
    spin_cafe_park_first
  have h2 := spinClosure_cafe_park_second
  refine ⟨?_, ?_, ?_⟩
  · simp only [runMounted, stepMounted, Mounted.init, h1, h2]
  · simp only [runMounted, stepMounted, Mounted.init, h1, h2, complete]
    rfl
  · simp only [runMounted, stepMounted, Mounted.init, h1, complete]
    rw [spinClosure_noop _ _ true _ 0 0 (Or.inr rfl)]
    rfl

end Wheel

namespace Wheel

/-! ## Double precision: evaluation of the rounding -/

theorem roundHalfEven_of_near (x : ℚ) (m : ℤ) (h1 : (m : ℚ) - 1 / 2 < x)
    (h2 : x < (m : ℚ) + 1 / 2) : roundHalfEven x = m := by
  have hf1 := Int.floor_le x
  have hf2 := Int.lt_floor_add_one x
  unfold roundHalfEven
  simp only
  by_cases hd : x - (Int.floor x : ℚ) < 1 / 2
  · rw [if_pos hd]
    have ha : ((Int.floor x : ℤ) : ℚ) < (m : ℚ) + 1 := by linarith
    have hb : (m : ℚ) < ((Int.floor x : ℤ) : ℚ) + 1 := by linarith
    have ha' : Int.floor x < m + 1 := by exact_mod_cast ha
    have hb' : m < Int.floor x + 1 := by exact_mod_cast hb
    omega
  · rw [if_neg hd]
    by_cases hd2 : 1 / 2 < x - (Int.floor x : ℚ)
    · rw [if_pos hd2]
      have ha : ((Int.floor x : ℤ) : ℚ) + 1 < (m : ℚ) + 1 := by linarith
      have hb : (m : ℚ) < ((Int.floor x : ℤ) : ℚ) + 1 + 1 := by linarith
      have ha' : Int.floor x + 1 < m + 1 := by exact_mod_cast ha
      have hb' : m < Int.floor x + 1 + 1 := by exact_mod_cast hb
      omega
    · exfalso
      have heq : x - (Int.floor x : ℚ) = 1 / 2 := le_antisymm (not_lt.mp hd2) (not_lt.mp hd)
      have ha : ((Int.floor x : ℤ) : ℚ) < (m : ℚ) := by linarith
      have hb : (m : ℚ) < ((Int.floor x : ℤ) : ℚ) + 1 := by linarith
      have ha' : Int.floor x < m := by exact_mod_cast ha
      have hb' : m < Int.floor x + 1 := by exact_mod_cast hb
      omega

/-- The value of `fl` at `x`, from the binade `e` of `x` and the integer `m`
nearest to `x / 2 ^ (e - 52)`. -/
theorem fl_of_binade (x : ℚ) (e m : ℤ) (hx : x ≠ 0) (h1 : (2 : ℚ) ^ e ≤ |x|)
    (h2 : |x| < (2 : ℚ) ^ (e + 1)) (he : -1022 ≤ e)
    (hm1 : (m : ℚ) - 1 / 2 < x / (2 : ℚ) ^ (e - 52))
    (hm2 : x / (2 : ℚ) ^ (e - 52) < (m : ℚ) + 1 / 2) :
    fl x = (m : ℚ) * (2 : ℚ) ^ (e - 52) := by
  have hpos : 0 < |x| := abs_pos.mpr hx
  have hle : e ≤ Int.log 2 |x| :=
    (Int.zpow_le_iff_le_log (by norm_num) hpos).mp (by simpa using h1)
  have hlt : Int.log 2 |x| < e + 1 :=
    (Int.lt_zpow_iff_log_lt (by norm_num) hpos).mp (by simpa using h2)
  have hlog : Int.log 2 |x| = e := by omega
  unfold fl
  rw [if_neg hx]
  simp only [hlog, max_eq_left he]
  rw [roundHalfEven_of_near _ m hm1 hm2]

theorem fl_zero : fl 0 = 0 := by simp [fl]

theorem fl_pos (x y : ℚ) (e m : ℤ) (hx : 0 < x) (h1 : (2 : ℚ) ^ e ≤ x)
    (h2 : x < (2 : ℚ) ^ (e + 1)) (he : -1022 ≤ e)
    (hm1 : (m : ℚ) - 1 / 2 < x / (2 : ℚ) ^ (e - 52))
    (hm2 : x / (2 : ℚ) ^ (e - 52) < (m : ℚ) + 1 / 2)
    (hy : (m : ℚ) * (2 : ℚ) ^ (e - 52) = y) : fl x = y := by
  rw [← hy]
  exact fl_of_binade x e m (ne_of_gt hx) (by rwa [abs_of_pos hx]) (by rwa [abs_of_pos hx]) he
    hm1 hm2

theorem fl_neg (x y : ℚ) (e m : ℤ) (hx : x < 0) (h1 : (2 : ℚ) ^ e ≤ -x)
    (h2 : -x < (2 : ℚ) ^ (e + 1)) (he : -1022 ≤ e)
    (hm1 : (m : ℚ) - 1 / 2 < x / (2 : ℚ) ^ (e - 52))
    (hm2 : x / (2 : ℚ) ^ (e - 52) < (m : ℚ) + 1 / 2)
    (hy : (m : ℚ) * (2 : ℚ) ^ (e - 52) = y) : fl x = y := by
  rw [← hy]
  exact fl_of_binade x e m (ne_of_lt hx) (by rwa [abs_of_neg hx]) (by rwa [abs_of_neg hx]) he
    hm1 hm2

theorem mathRound_of_near (x : ℚ) (m : ℤ) (h1 : (m : ℚ) ≤ x + 1 / 2)
    (h2 : x + 1 / 2 < (m : ℚ) + 1) : mathRound x = m := by
  unfold mathRound
  rw [Int.floor_eq_iff]
  exact ⟨h1, h2⟩

/-! ## Double precision: the values met on Cafe and Park with weights 1 and 15 -/

theorem fl_value_0 : fl (1) = 1 :=
  fl_pos _ _ (0) (4503599627370496) (by norm_num) (by norm_num) (by norm_num) (by norm_num)
    (by norm_num) (by norm_num) (by norm_num)

theorem fl_value_1 : fl (16) = 16 :=
  fl_pos _ _ (4) (4503599627370496) (by norm_num) (by norm_num) (by norm_num) (by norm_num)
    (by norm_num) (by norm_num) (by norm_num)

theorem fl_value_2 : fl (1 / 16) = 1 / 16 :=
  fl_pos _ _ (-4) (4503599627370496) (by norm_num) (by norm_num) (by norm_num) (by norm_num)
    (by norm_num) (by norm_num) (by norm_num)

theorem fl_value_3 : fl (45 / 2) = 45 / 2 :=
  fl_pos _ _ (4) (6333186975989760) (by norm_num) (by norm_num) (by norm_num) (by norm_num)
    (by norm_num) (by norm_num) (by norm_num)

theorem fl_value_4 : fl (45 / 4) = 45 / 4 :=
  fl_pos _ _ (3) (6333186975989760) (by norm_num) (by norm_num) (by norm_num) (by norm_num)
    (by norm_num) (by norm_num) (by norm_num)

theorem fl_value_5 : fl (15 / 16) = 15 / 16 :=
  fl_pos _ _ (-1) (8444249301319680) (by norm_num) (by norm_num) (by norm_num) (by norm_num)
    (by norm_num) (by norm_num) (by norm_num)

theorem fl_value_6 : fl (675 / 2) = 675 / 2 :=
  fl_pos _ _ (8) (5937362789990400) (by norm_num) (by norm_num) (by norm_num) (by norm_num)
    (by norm_num) (by norm_num) (by norm_num)

theorem fl_value_7 : fl (360) = 360 :=
  fl_pos _ _ (8) (6333186975989760) (by norm_num) (by norm_num) (by norm_num) (by norm_num)
    (by norm_num) (by norm_num) (by norm_num)

theorem fl_value_8 : fl (765 / 2) = 765 / 2 :=
  fl_pos _ _ (8) (6729011161989120) (by norm_num) (by norm_num) (by norm_num) (by norm_num)
    (by norm_num) (by norm_num) (by norm_num)

theorem fl_value_9 : fl (765 / 4) = 765 / 4 :=
  fl_pos _ _ (7) (6729011161989120) (by norm_num) (by norm_num) (by norm_num) (by norm_num)
    (by norm_num) (by norm_num) (by norm_num)

theorem fl_value_10 : fl ((-1)) = (-1) :=
  fl_neg _ _ (0) (-4503599627370496) (by norm_num) (by norm_num) (by norm_num) (by norm_num)
    (by norm_num) (by norm_num) (by norm_num)

theorem fl_value_11 : fl (1395 / 4) = 1395 / 4 :=
  fl_pos _ _ (8) (6135274882990080) (by norm_num) (by norm_num) (by norm_num) (by norm_num)
    (by norm_num) (by norm_num) (by norm_num)

theorem fl_value_12 : fl (2160) = 2160 :=
  fl_pos _ _ (11) (4749890231992320) (by norm_num) (by norm_num) (by norm_num) (by norm_num)
    (by norm_num) (by norm_num) (by norm_num)

theorem fl_value_13 : fl (10035 / 4) = 10035 / 4 :=
  fl_pos _ _ (11) (5516799592366080) (by norm_num) (by norm_num) (by norm_num) (by norm_num)
    (by norm_num) (by norm_num) (by norm_num)

theorem fl_value_14 : fl (50175 / 2) = 50175 / 2 :=
  fl_pos _ _ (14) (6895999490457600) (by norm_num) (by norm_num) (by norm_num) (by norm_num)
    (by norm_num) (by norm_num) (by norm_num)

theorem fl_value_15 : fl (12544 / 5) = 2758454771764429 / 1099511627776 :=
  fl_pos _ _ (11) (5516909543528858) (by norm_num) (by norm_num) (by norm_num) (by norm_num)
    (by norm_num) (by norm_num) (by norm_num)

theorem fl_value_16 : fl (2758454771764429 / 1099511627776) = 2758454771764429 / 1099511627776 :=
  fl_pos _ _ (11) (5516909543528858) (by norm_num) (by norm_num) (by norm_num) (by norm_num)
    (by norm_num) (by norm_num) (by norm_num)

theorem fl_value_17 : fl (2758454771764429 / 549755813888) = 2758454771764429 / 549755813888 :=
  fl_pos _ _ (12) (5516909543528858) (by norm_num) (by norm_num) (by norm_num) (by norm_num)
    (by norm_num) (by norm_num) (by norm_num)

theorem fl_value_18 : fl (8275364315293287 / 1099511627776) = 8275364315293287 / 1099511627776 :=
  fl_pos _ _ (12) (8275364315293287) (by norm_num) (by norm_num) (by norm_num) (by norm_num)
    (by norm_num) (by norm_num) (by norm_num)

theorem fl_value_19 : fl (3945927329762509 / 549755813888) = 3945927329762509 / 549755813888 :=
  fl_pos _ _ (12) (7891854659525018) (by norm_num) (by norm_num) (by norm_num) (by norm_num)
    (by norm_num) (by norm_num) (by norm_num)

theorem fl_value_20 : fl (4137654669855949 / 549755813888) = 4137654669855949 / 549755813888 :=
  fl_pos _ _ (12) (8275309339711898) (by norm_num) (by norm_num) (by norm_num) (by norm_num)
    (by norm_num) (by norm_num) (by norm_num)

theorem fl_value_21 : fl (20688273349279745 / 274877906944) = 150527 / 2 :=
  fl_pos _ _ (16) (5172068337319936) (by norm_num) (by norm_num) (by norm_num) (by norm_num)
    (by norm_num) (by norm_num) (by norm_num)

theorem fl_value_22 : fl (37632 / 5) = 4137682157646643 / 549755813888 :=
  fl_pos _ _ (12) (8275364315293286) (by norm_num) (by norm_num) (by norm_num) (by norm_num)
    (by norm_num) (by norm_num) (by norm_num)

theorem mathRound_value_0 : mathRound (50175 / 2) = 25088 :=
  mathRound_of_near _ _ (by norm_num) (by norm_num)

theorem mathRound_value_1 : mathRound (150527 / 2) = 75264 :=
  mathRound_of_near _ _ (by norm_num) (by norm_num)

end Wheel

namespace Wheel

/-! ## Double precision: three spins on Cafe and Park with weights 1 and 15 -/

theorem dataDouble_cafe_park_15 :
    dataDouble [cafe, park] (some [jsNum 1, jsNum 15]) =
      [{ name := "Cafe", item := cafe, w := 1 }, { name := "Park", item := park, w := 15 }] := by
  simp [dataDouble, clean, cleanFrom, sumWDouble, resolveWeight, weightAt, toNumber, mathMax0,
    orZero, jsNum, entryName, itemName, cafe, park, trim, trimChars, jsIsWhiteSpace]
  norm_num [fl_value_0, fl_value_1]

theorem totalWeightDouble_cafe_park_15 :
    totalWeightDouble (dataDouble [cafe, park] (some [jsNum 1, jsNum 15])) = 16 := by
  rw [dataDouble_cafe_park_15]
  simp [totalWeightDouble, sumWDouble]
  norm_num [fl_value_0, fl_value_1]

theorem segmentsDouble_cafe_park_15 :
    segmentsDouble (dataDouble [cafe, park] (some [jsNum 1, jsNum 15])) =
      [cafeSeg15, parkSeg15] := by
  unfold segmentsDouble
  rw [totalWeightDouble_cafe_park_15, dataDouble_cafe_park_15]
  simp only [segsFromDouble, cafeSeg15, parkSeg15]
  norm_num [fl_value_2, fl_value_3, fl_value_4, fl_value_5, fl_value_6, fl_value_7,
    fl_value_8, fl_value_9]

theorem spinDouble_first :
    spinDouble [cafeSeg15, parkSeg15] 16 WheelState.init 0 0 =
      some { spinning := true, rotation := double2508_8, timers := [(cafe, 0)],
             results := [] } := by
  norm_num [spinDouble, pickIndexWeightedDouble, pickLoopDouble, cafeSeg15, parkSeg15,
    WheelState.init, mathFloor, double2508_8, fl_zero, fl_value_10, fl_value_11, fl_value_12,
    fl_value_13, fl_value_14, mathRound_value_0, fl_value_15, fl_value_16]

theorem spinDouble_second :
    spinDouble [cafeSeg15, parkSeg15] 16
      (complete { spinning := true, rotation := double2508_8, timers := [(cafe, 0)],
                  results := [] }) 0 0 =
      some { spinning := true, rotation := double5017_6, timers := [(cafe, 0)],
             results := [(cafe, 0)] } := by
  norm_num [spinDouble, complete, pickIndexWeightedDouble, pickLoopDouble, cafeSeg15, parkSeg15,
    mathFloor, double2508_8, double5017_6, fl_zero, fl_value_10, fl_value_11, fl_value_12,
    fl_value_13, fl_value_14, mathRound_value_0, fl_value_15, fl_value_17]

theorem spinDouble_third :
    spinDouble [cafeSeg15, parkSeg15] 16
      (complete { spinning := true, rotation := double5017_6, timers := [(cafe, 0)],
                  results := [(cafe, 0)] }) 0 0 =
      some { spinning := true, rotation := double7526_4_up, timers := [(cafe, 0)],
             results := [(cafe, 0), (cafe, 0)] } := by
  norm_num [spinDouble, complete, pickIndexWeightedDouble, pickLoopDouble, cafeSeg15, parkSeg15,
    mathFloor, double2508_8, double5017_6, double7526_4_up, fl_zero, fl_value_10, fl_value_11,
    fl_value_12, fl_value_13, fl_value_14, mathRound_value_0, fl_value_15, fl_value_18]

theorem round1Double_increment :
    round1Double (fl (fl (6 * 360) + fl (360 - cafeSeg15.mid))) = double2508_8 := by
  norm_num [round1Double, cafeSeg15, double2508_8, fl_value_11, fl_value_12, fl_value_13,
    fl_value_14, mathRound_value_0, fl_value_15]

theorem round1Double_total :
    round1Double (fl (fl (double5017_6 + fl (6 * 360)) + fl (360 - cafeSeg15.mid))) =
      double7526_4 := by
  norm_num [round1Double, cafeSeg15, double5017_6, double7526_4, fl_value_11, fl_value_12,
    fl_value_19, fl_value_20, fl_value_21, mathRound_value_1, fl_value_22]

/-- C17, the claim refuted in double precision, on the wheel of Cafe and Park with
weights 1 and 15 and every random value 0: the three spins stop at the doubles
2508.8, 5017.6 and 7526.400000000001.  The third rotation is the previous one
plus the rounded increment, and it is not the total rounded to one decimal,
which is the double 7526.4. -/
theorem rotation_not_rounded_total_in_doubles :
    segmentsDouble (dataDouble [cafe, park] (some [jsNum 1, jsNum 15])) =
      [cafeSeg15, parkSeg15] ∧
    spinDouble (segmentsDouble (dataDouble [cafe, park] (some [jsNum 1, jsNum 15])))
      (totalWeightDouble (dataDouble [cafe, park] (some [jsNum 1, jsNum 15])))
      WheelState.init 0 0 =
      some { spinning := true, rotation := double2508_8, timers := [(cafe, 0)],
             results := [] } ∧
    spinDouble (segmentsDouble (dataDouble [cafe, park] (some [jsNum 1, jsNum 15])))
      (totalWeightDouble (dataDouble [cafe, park] (some [jsNum 1, jsNum 15])))
      (complete { spinning := true, rotation := double2508_8, timers := [(cafe, 0)],
                  results := [] }) 0 0 =
      some { spinning := true, rotation := double5017_6, timers := [(cafe, 0)],
             results := [(cafe, 0)] } ∧
    spinDouble (segmentsDouble (dataDouble [cafe, park] (some [jsNum 1, jsNum 15])))
      (totalWeightDouble (dataDouble [cafe, park] (some [jsNum 1, jsNum 15])))
      (complete { spinning := true, rotation := double5017_6, timers := [(cafe, 0)],
                  results := [(cafe, 0)] }) 0 0 =
      some { spinning := true, rotation := double7526_4_up, timers := [(cafe, 0)],
             results := [(cafe, 0), (cafe, 0)] } ∧
    fl (double5017_6 + round1Double (fl (fl (6 * 360) + fl (360 - cafeSeg15.mid)))) =
      double7526_4_up ∧
    round1Double (fl (fl (double5017_6 + fl (6 * 360)) + fl (360 - cafeSeg15.mid))) =
      double7526_4 ∧
    fl (double5017_6 + round1Double (fl (fl (6 * 360) + fl (360 - cafeSeg15.mid)))) ≠
      round1Double (fl (fl (double5017_6 + fl (6 * 360)) + fl (360 - cafeSeg15.mid))) := by
  have hsum : fl (double5017_6 + round1Double (fl (fl (6 * 360) + fl (360 - cafeSeg15.mid)))) =
      double7526_4_up := by
    rw [round1Double_increment]
    norm_num [double5017_6, double2508_8, double7526_4_up, fl_value_18]
  refine ⟨segmentsDouble_cafe_park_15, ?_, ?_, ?_, hsum, round1Double_total, ?_⟩
  · rw [segmentsDouble_cafe_park_15, totalWeightDouble_cafe_park_15]
    exact spinDouble_first
  · rw [segmentsDouble_cafe_park_15, totalWeightDouble_cafe_park_15]
    exact spinDouble_second
  · rw [segmentsDouble_cafe_park_15, totalWeightDouble_cafe_park_15]
    exact spinDouble_third
  · rw [hsum, round1Double_total]
    norm_num [double7526_4_up, double7526_4]

end Wheel

namespace Wheel

/-! ## Rounding of the rotation, triggers between renders included -/

theorem spinClosure_false_eq_spin (segs : List Segment) (total : ℚ) (st : WheelState)
    (rand1 rand2 : ℚ) (hne : segs.length ≠ 0) :
    spinClosure segs total false st rand1 rand2 =
      spin segs total { st with spinning := false } rand1 rand2 := by
  unfold spinClosure spin
  rw [if_neg (by simp [hne]), if_neg (by simp [hne])]

theorem tenths_stepMounted (segs : List Segment) (total : ℚ) (m m1 : Mounted) (e : DomEvent)
    (h : ∃ k : ℤ, m.state.rotation = (k : ℚ) / 10) (hs : stepMounted segs total m e = some m1) :
    ∃ k : ℤ, m1.state.rotation = (k : ℚ) / 10 := by
  obtain ⟨k, hk⟩ := h
  cases e with
  | render =>
    simp only [stepMounted, Option.some.injEq] at hs
    rw [← hs]
    exact ⟨k, hk⟩
  | timeout =>
    simp only [stepMounted, Option.some.injEq] at hs
    rw [← hs]
    refine ⟨k, ?_⟩
    simp only [complete]
    cases m.state.timers <;> simpa using hk
  | click rand1 rand2 =>
    simp only [stepMounted] at hs
    cases hc : spinClosure segs total m.rendered m.state rand1 rand2 with
    | none => simp [hc] at hs
    | some st1 =>
      simp only [hc, Option.some.injEq] at hs
      rw [← hs]
      simp only
      cases hren : m.rendered with
      | true =>
        rw [hren, spinClosure_noop _ _ true _ _ _ (Or.inr rfl)] at hc
        rw [← Option.some.inj hc]
        exact ⟨k, hk⟩
      | false =>
        by_cases hlen : segs.length = 0
        · rw [spinClosure_noop _ _ _ _ _ _ (Or.inl hlen)] at hc
          rw [← Option.some.inj hc]
          exact ⟨k, hk⟩
        rw [hren, spinClosure_false_eq_spin _ _ _ _ _ hlen] at hc
        rcases spin_eq_cases _ _ _ st1 rand1 rand2 hc with ⟨_, heq⟩ | ⟨_, _, idx, seg, _, _, heq⟩
        · rw [heq]
          exact ⟨k, hk⟩
        · rw [heq]
          refine ⟨k + mathRound
            ((((6 + mathFloor (rand2 * 3) : ℤ) : ℚ) * 360 + (360 - seg.mid)) * 10), ?_⟩
          simp only
          rw [hk]
          push_cast
          ring

theorem tenths_runMounted (segs : List Segment) (total : ℚ) (evs : List DomEvent)
    (m m1 : Mounted) (h : ∃ k : ℤ, m.state.rotation = (k : ℚ) / 10)
    (hr : runMounted segs total m evs = some m1) :
    ∃ k : ℤ, m1.state.rotation = (k : ℚ) / 10 := by
  induction evs generalizing m with
  | nil =>
    simp only [runMounted, Option.some.injEq] at hr
    rw [← hr]
    exact h
  | cons e es ih =>
    simp only [runMounted] at hr
    cases hs : stepMounted segs total m e with
    | none => simp [hs] at hr
    | some m2 =>
      simp only [hs] at hr
      exact ih m2 (tenths_stepMounted segs total m m2 e h hs) hr

/-- C17, amended: in exact arithmetic, in every idle state that a non-empty wheel
reaches from its mount, the rotation after a spin, which the code computes as the
previous rotation plus the rounded increment, is the total
`prev + spins * 360 + (360 - mid)` rounded to one decimal.  The same holds of
every spin that passes the guard in a state reached with triggers between
renders. -/
theorem rotation_rounds_total (items : List (Option Item)) (weights : Option (List JSValue))
    (h : items ≠ []) (evs : List Event) (st : WheelState)
    (hr : run (segments (data items weights)) (totalWeight (data items weights))
      WheelState.init evs = some st)
    (hidle : st.spinning = false) (rand1 rand2 : ℚ) :
    (∃ idx seg st1,
      pickIndexWeighted (segments (data items weights)) (totalWeight (data items weights))
        rand1 = some idx ∧
      (segments (data items weights))[idx]? = some seg ∧
      spin (segments (data items weights)) (totalWeight (data items weights)) st rand1 rand2 =
        some st1 ∧
      st1.rotation = st.rotation +
        round1 (((6 + mathFloor (rand2 * 3) : ℤ) : ℚ) * 360 + (360 - seg.mid)) ∧
      st1.rotation =
        round1 (st.rotation + ((6 + mathFloor (rand2 * 3) : ℤ) : ℚ) * 360 + (360 - seg.mid))) ∧
    (∀ (devs : List DomEvent) (m : Mounted),
      runMounted (segments (data items weights)) (totalWeight (data items weights))
        Mounted.init devs = some m →
      m.rendered = false →
      ∃ idx seg st1,
        pickIndexWeighted (segments (data items weights)) (totalWeight (data items weights))
          rand1 = some idx ∧
        (segments (data items weights))[idx]? = some seg ∧
        spinClosure (segments (data items weights)) (totalWeight (data items weights))
          m.rendered m.state rand1 rand2 = some st1 ∧
        st1.rotation = m.state.rotation +
          round1 (((6 + mathFloor (rand2 * 3) : ℤ) : ℚ) * 360 + (360 - seg.mid)) ∧
        st1.rotation =
          round1 (m.state.rotation + ((6 + mathFloor (rand2 * 3) : ℤ) : ℚ) * 360 +
            (360 - seg.mid))) := by
  constructor
  · obtain ⟨idx, seg, it, hp, hseg, _, _, _, hspin⟩ :=
      spin_effective items weights h st hidle rand1 rand2
    obtain ⟨_, k, hk⟩ := consistent_run _ _ evs _ st consistent_init hr
    refine ⟨idx, seg, _, hp, hseg, hspin, rfl, ?_⟩
    simp only
    rw [hk, add_assoc, ← round1_tenths_add]
    rfl
  · intro devs m hm hren
    obtain ⟨idx, seg, it, hp, hseg, _, _, _, hspin⟩ :=
      spin_effective items weights h { m.state with spinning := false } rfl rand1 rand2
    obtain ⟨k, hk⟩ := tenths_runMounted _ _ devs Mounted.init m
      ⟨0, by simp [Mounted.init, WheelState.init]⟩ hm
    have hlen : (segments (data items weights)).length ≠ 0 := by
      rw [segments_length, data_length]
      exact fun h0 => h (List.length_eq_zero.mp h0)
    rw [hren, spinClosure_false_eq_spin _ _ _ _ _ hlen]
    refine ⟨idx, seg, _, hp, hseg, hspin, rfl, ?_⟩
    simp only
    rw [hk, add_assoc, ← round1_tenths_add]
    rfl

/-- Witness of C17 on the wheel of Cafe and Park after one completed spin. -/
theorem rotation_rounds_total_witness :
    (∃ idx seg st1,
      pickIndexWeighted (segments (data [cafe, park] (some [jsNum 1, jsNum 1])))
        (totalWeight (data [cafe, park] (some [jsNum 1, jsNum 1]))) 0 = some idx ∧
      (segments (data [cafe, park] (some [jsNum 1, jsNum 1])))[idx]? = some seg ∧
      spin (segments (data [cafe, park] (some [jsNum 1, jsNum 1])))
        (totalWeight (data [cafe, park] (some [jsNum 1, jsNum 1])))
        (complete { spinning := true, rotation := 2430, timers := [(cafe, 0)], results := [] })
        0 0 = some st1 ∧
      st1.rotation =
        (complete { spinning := true, rotation := 2430, timers := [(cafe, 0)],
                    results := [] }).rotation +
          round1 (((6 + mathFloor ((0 : ℚ) * 3) : ℤ) : ℚ) * 360 + (360 - seg.mid)) ∧
      st1.rotation =
        round1 ((complete { spinning := true, rotation := 2430, timers := [(cafe, 0)],
                            results := [] }).rotation +
          ((6 + mathFloor ((0 : ℚ) * 3) : ℤ) : ℚ) * 360 + (360 - seg.mid))) ∧
    (∀ (devs : List DomEvent) (m : Mounted),
      runMounted (segments (data [cafe, park] (some [jsNum 1, jsNum 1])))
        (totalWeight (data [cafe, park] (some [jsNum 1, jsNum 1]))) Mounted.init devs = some m →
      m.rendered = false →
      ∃ idx seg st1,
        pickIndexWeighted (segments (data [cafe, park] (some [jsNum 1, jsNum 1])))
          (totalWeight (data [cafe, park] (some [jsNum 1, jsNum 1]))) 0 = some idx ∧
        (segments (data [cafe, park] (some [jsNum 1, jsNum 1])))[idx]? = some seg ∧
        spinClosure (segments (data [cafe, park] (some [jsNum 1, jsNum 1])))
          (totalWeight (data [cafe, park] (some [jsNum 1, jsNum 1]))) m.rendered m.state 0 0 =
          some st1 ∧
        st1.rotation = m.state.rotation +
          round1 (((6 + mathFloor ((0 : ℚ) * 3) : ℤ) : ℚ) * 360 + (360 - seg.mid)) ∧
        st1.rotation =
          round1 (m.state.rotation + ((6 + mathFloor ((0 : ℚ) * 3) : ℤ) : ℚ) * 360 +
            (360 - seg.mid))) :=
  rotation_rounds_total [cafe, park] (some [jsNum 1, jsNum 1]) (by simp)
    [Event.click 0 0, Event.timeout]
    (complete { spinning := true, rotation := 2430, timers := [(cafe, 0)], results := [] })
    (by simp only [run, step, spin_cafe_park_first])
    rfl 0 0

end Wheel
